import Mathlib

/-!
Verification development for the mpt_bench workload-generation and batched-commit
harness.  The repository holds two variants of the same ~210-line Go program:
src/cmd/mpt_bench/main.go (Pebble-backed) and src/unnamed/part_000 (LevelDB-backed).
Both drive the same two-phase workload: phase 1 creates nAccounts accounts with a
variable number of storage slots, committing every kCommit accounts; phase 2 picks a
random permutation of the accounts and rewrites 500 slots in each of the first
mModify of them, committing with revision numbers offset by 1000000.

The external collaborators (math/rand as a draw stream, crypto.Keccak256 as a
content-addressable digest, the state/trie store as a pair of fallible commit
functions) are out of scope per the spec and are modelled as injected parameters
or, where a concrete executable stand-in is needed, by definitions marked
"Modelled from the spec".
-/

namespace MptBench

/-- A 32-byte word (balance, storage value) as a natural number below 2^256. -/
abbrev Word := Nat

/-- Digest produced by the modelled content-addressable hash: a list of character codes. -/
abbrev Digest := List Nat

/-- An opaque state-root fingerprint returned by the external store's commit. -/
abbrev Root := Nat

/-- common.Hash{}: the empty root the first state view is opened at. -/
def emptyRoot : Root := 0

/-- Modelled from the spec: crypto.Keccak256, the external content-addressable hash
used only to derive deterministic keys and addresses (out of scope per the spec's
section 1); modelled as an injective digest of the label text. -/
def keccak256 (s : String) : Digest := s.data.map Char.toNat

/-- Account label fmt.Sprintf("account-%d", i) at main.go:76 / part_000:75. -/
def accountLabel (i : Nat) : String := "account-" ++ toString i

/-- Address derivation common.BytesToAddress(crypto.Keccak256(label)[:20]); the
20-byte truncation performed on the external hash is elided by the model. -/
def mkAddress (i : Nat) : Digest := keccak256 (accountLabel i)

/-- The two source variants of the benchmark present in the repository. -/
inductive Variant where
  | pebble
  | leveldb
deriving DecidableEq, Repr

/-- Phase-1 slot label: fmt.Sprintf("acc-%d-slot-%d", i, j) at main.go:87 versus
fmt.Sprintf("account-%d-slot-%d", i, j) at part_000:85. -/
def p1SlotLabel : Variant → Nat → Nat → String
  | .pebble, i, j => "acc-" ++ toString i ++ "-slot-" ++ toString j
  | .leveldb, i, j => "account-" ++ toString i ++ "-slot-" ++ toString j

/-- Phase-2 slot label: fmt.Sprintf("acc-%d-slot-%d", ...) at main.go:157 versus
fmt.Sprintf("account-%d-slot-%d", ...) at part_000:150. -/
def p2SlotLabel : Variant → Nat → Nat → String
  | .pebble, i, j => "acc-" ++ toString i ++ "-slot-" ++ toString j
  | .leveldb, i, j => "account-" ++ toString i ++ "-slot-" ++ toString j

/-- Phase-1 slot key: common.BytesToHash(crypto.Keccak256(label)). -/
def p1SlotKey (v : Variant) (i j : Nat) : Digest := keccak256 (p1SlotLabel v i j)

/-- Phase-2 slot key: common.BytesToHash(crypto.Keccak256(label)). -/
def p2SlotKey (v : Variant) (i j : Nat) : Digest := keccak256 (p2SlotLabel v i j)

/-- A math/rand source: an infinite stream of raw draws together with a cursor.
The actual generator is an external collaborator; every theorem below quantifies
over the stream, so it covers in particular the stream produced by seed 42. -/
structure Rng where
  stream : Nat → Nat
  pos : Nat

/-- The next raw draw of the stream. -/
def Rng.next (r : Rng) : Nat × Rng := (r.stream r.pos, ⟨r.stream, r.pos + 1⟩)

/-- rand.Intn(n): Go panics when the argument is not positive; the panic is
modelled as none.  A successful draw is uniform over [0, n) (one stream value
reduced mod n). -/
def Rng.intn (r : Rng) (n : Nat) : Option (Nat × Rng) :=
  if n = 0 then none else some (r.stream r.pos % n, ⟨r.stream, r.pos + 1⟩)

/-- rand.Read filling a 32-byte hash: one stream draw reduced to a 256-bit word. -/
def Rng.read32 (r : Rng) : Word × Rng := (r.stream r.pos % 2 ^ 256, ⟨r.stream, r.pos + 1⟩)

/-- One iteration of rand.Perm's inside-out Fisher-Yates shuffle: m[i] = m[j]; m[j] = i. -/
def permStep (m : List Nat) (i j : Nat) : List Nat := (m.set i (m.getD j 0)).set j i

/-- The loop of rand.Perm, iterating i upward while fuel counts the remaining steps. -/
def permAux (r : Rng) (m : List Nat) (i : Nat) (fuel : Nat) : Option (List Nat × Rng) :=
  match fuel with
  | 0 => some (m, r)
  | f + 1 =>
    match r.intn (i + 1) with
    | none => none
    | some (j, r1) => permAux r1 (permStep m i j) (i + 1) f

/-- rand.Perm(n) as used at main.go:147 / part_000:141. -/
def Rng.perm (r : Rng) (n : Nat) : Option (List Nat × Rng) :=
  permAux r (List.replicate n 0) 0 n

/-- Workload phase. -/
inductive Phase where
  | creation
  | modification
deriving DecidableEq, Repr

/-- A mutation issued against the state view. -/
inductive Mutation where
  | setBalance (addr : Digest) (val : Word)
  | setNonce (addr : Digest) (nonce : Nat)
  | setState (addr : Digest) (key : Digest) (val : Word)
deriving DecidableEq, Repr

/-- A state view (state.StateDB): opened at a root, accumulating dirty mutations. -/
structure StateDB where
  openedAt : Root
  muts : List Mutation
deriving DecidableEq, Repr

/-- statedb.SetBalance(addr, val, tracing.BalanceChangeUnspecified). -/
def StateDB.setBalance (db : StateDB) (a : Digest) (v : Word) : StateDB :=
  { db with muts := db.muts ++ [.setBalance a v] }

/-- statedb.SetNonce(addr, nonce, tracing.NonceChangeUnspecified). -/
def StateDB.setNonce (db : StateDB) (a : Digest) (n : Nat) : StateDB :=
  { db with muts := db.muts ++ [.setNonce a n] }

/-- statedb.SetState(addr, key, val). -/
def StateDB.setState (db : StateDB) (a : Digest) (k : Digest) (v : Word) : StateDB :=
  { db with muts := db.muts ++ [.setState a k v] }

/-- state.New(root, sdb): a fresh view rooted at root (the source discards the error). -/
def stateNew (root : Root) : StateDB := ⟨root, []⟩

/-- The external state/trie store collaborator: statedb.Commit(rev, false, false)
returning a root or an error, and trieDB.Commit(root, false) returning an error. -/
structure Store where
  stateCommit : Nat → StateDB → Except String Root
  trieCommit : Root → Except String Unit

/-- Record of one successful commit: phase, number of units processed when it
happened (i+1), the revision passed to the store, and the returned root. -/
structure CommitEvent where
  phase : Phase
  afterUnits : Nat
  rev : Nat
  root : Root
deriving DecidableEq, Repr

/-- The command-line parameters n, slots, m, k of the benchmark. -/
structure Params where
  nAccounts : Nat
  nSlots : Nat
  mModify : Nat
  kCommit : Nat
deriving DecidableEq, Repr

/-- The orchestrator's running state: the open view, the head of the root chain,
the addrs array, the successful commits, the full applied-mutation log (ghost
instrumentation mirroring the SetX call sequence), the two progress counters, and
whether the final report was emitted. -/
structure RunState where
  statedb : StateDB
  currentRoot : Root
  addrs : List Digest
  commits : List CommitEvent
  trace : List (Phase × Mutation)
  totalSlotsCreated : Nat
  totalSlotsModified : Nat
  reportEmitted : Bool
deriving DecidableEq, Repr

/-- Result of a phase fragment: normal value, Go runtime panic (Intn with a
non-positive argument or modulo by zero), or a reported commit failure that makes
main return early. -/
inductive Res (α : Type) where
  | ok (a : α)
  | crashed (st : RunState)
  | failed (msg : String) (st : RunState)

/-- The run state carried by any result. -/
def Res.state : Res (RunState × Rng) → RunState
  | .ok (st, _) => st
  | .crashed st => st
  | .failed _ st => st

/-- Whether the result is a normal value. -/
def Res.isOk : Res α → Bool
  | .ok _ => true
  | _ => false

/-- uint256.NewInt(1e18), the balance fixed at creation. -/
def balanceValue : Word := 10 ^ 18

/-- The commit-boundary test (i+1)%batchSize == 0 || i+1 == last, from main.go:107
(last = nAccounts) and main.go:168 (last = the clamped mModify). -/
def commitBoundary (last k i : Nat) : Bool := (i + 1) % k == 0 || i + 1 == last

/-- One phase-1 slot mutation, main.go 85-99: bump the slot counter, derive the
slot key, roll the value-policy dice over [0,100), and issue SetState. -/
def p1Slot (v : Variant) (addr : Digest) (i j : Nat) (st : RunState) (r : Rng) :
    Res (RunState × Rng) :=
  let st := { st with totalSlotsCreated := st.totalSlotsCreated + 1 }
  let key := p1SlotKey v i j
  match r.intn 100 with
  | none => .crashed st
  | some (dice, r1) =>
    let val :=
      if dice < 20 then ((0 : Word), r1)
      else if dice < 30 then ((1 : Word), r1)
      else r1.read32
    .ok ({ st with statedb := st.statedb.setState addr key val.1,
                   trace := st.trace ++ [(.creation, .setState addr key val.1)] }, val.2)

/-- The phase-1 inner loop over slot indices j, j+1, ... with cnt iterations left. -/
def p1SlotsFrom (v : Variant) (addr : Digest) (i j : Nat) (st : RunState) (r : Rng)
    (cnt : Nat) : Res (RunState × Rng) :=
  match cnt with
  | 0 => .ok (st, r)
  | c + 1 =>
    match p1Slot v addr i j st r with
    | .ok (st1, r1) => p1SlotsFrom v addr i (j + 1) st1 r1 c
    | .crashed s => .crashed s
    | .failed e s => .failed e s

/-- Opening of the phase-1 body for account i, main.go 75-80: derive and record
the address, then set its balance and nonce. -/
def p1Pre (i : Nat) (st : RunState) : RunState :=
  { st with
    addrs := st.addrs ++ [mkAddress i],
    statedb := (st.statedb.setBalance (mkAddress i) balanceValue).setNonce (mkAddress i) i,
    trace := st.trace ++ [(.creation, .setBalance (mkAddress i) balanceValue),
                          (.creation, .setNonce (mkAddress i) i)] }

/-- Phase-1 body for account i, main.go 75-129: the opening above, the draw
vSlots = Intn(nSlots*2), the slot mutations, and at a commit boundary
statedb.Commit(i/k) then trieDB.Commit, recording the new root and reopening a
fresh view at it. -/
def p1Account (v : Variant) (p : Params) (store : Store) (i : Nat) (st : RunState)
    (r : Rng) : Res (RunState × Rng) :=
  match r.intn (p.nSlots * 2) with
  | none => .crashed (p1Pre i st)
  | some (vSlots, r1) =>
    match p1SlotsFrom v (mkAddress i) i 0 (p1Pre i st) r1 vSlots with
    | .crashed s => .crashed s
    | .failed e s => .failed e s
    | .ok (st2, r2) =>
      if p.kCommit = 0 then .crashed st2
      else if commitBoundary p.nAccounts p.kCommit i then
        match store.stateCommit (i / p.kCommit) st2.statedb with
        | .error e => .failed e st2
        | .ok root =>
          match store.trieCommit root with
          | .error e => .failed e st2
          | .ok _ =>
            .ok ({ st2 with
              currentRoot := root,
              commits := st2.commits ++ [⟨.creation, i + 1, i / p.kCommit, root⟩],
              statedb := stateNew root }, r2)
      else .ok (st2, r2)

/-- The phase-1 account loop from index i with fuel iterations left. -/
def p1LoopFrom (v : Variant) (p : Params) (store : Store) (i : Nat) (st : RunState)
    (r : Rng) (fuel : Nat) : Res (RunState × Rng) :=
  match fuel with
  | 0 => .ok (st, r)
  | f + 1 =>
    match p1Account v p store i st r with
    | .ok (st1, r1) => p1LoopFrom v p store (i + 1) st1 r1 f
    | .crashed s => .crashed s
    | .failed e s => .failed e s

/-- Phase 1 in full: the loop over all nAccounts accounts. -/
def phase1 (v : Variant) (p : Params) (store : Store) (st : RunState) (r : Rng) :
    Res (RunState × Rng) :=
  p1LoopFrom v p store 0 st r p.nAccounts

/-- The constant slotsToModifyPerAccount = 500 of main.go:143 (an inline literal
at part_000:147). -/
def slotsToModifyPerAccount : Nat := 500

/-- One phase-2 slot mutation, main.go 153-160: bump the counter, draw
slotIdx = Intn(nSlots), derive the key with the phase-1 pattern, read a fresh
random 32-byte value, and issue SetState. -/
def p2Slot (v : Variant) (p : Params) (addr : Digest) (accountIdx : Nat)
    (st : RunState) (r : Rng) : Res (RunState × Rng) :=
  let st := { st with totalSlotsModified := st.totalSlotsModified + 1 }
  match r.intn p.nSlots with
  | none => .crashed st
  | some (slotIdx, r1) =>
    let key := p2SlotKey v accountIdx slotIdx
    let val := r1.read32
    .ok ({ st with statedb := st.statedb.setState addr key val.1,
                   trace := st.trace ++ [(.modification, .setState addr key val.1)] },
         val.2)

/-- The phase-2 inner loop with cnt slot mutations left for the current account. -/
def p2SlotsFrom (v : Variant) (p : Params) (addr : Digest) (accountIdx : Nat)
    (st : RunState) (r : Rng) (cnt : Nat) : Res (RunState × Rng) :=
  match cnt with
  | 0 => .ok (st, r)
  | c + 1 =>
    match p2Slot v p addr accountIdx st r with
    | .ok (st1, r1) => p2SlotsFrom v p addr accountIdx st1 r1 c
    | .crashed s => .crashed s
    | .failed e s => .failed e s

/-- Phase-2 body for loop index i, main.go 148-188: look up the permuted account
index and its phase-1 address, modify 500 slots, and at a boundary commit with
revision i/k + 1000000, then reopen the view at the new root. -/
def p2Account (v : Variant) (p : Params) (store : Store) (mM : Nat)
    (perm : List Nat) (i : Nat) (st : RunState) (r : Rng) : Res (RunState × Rng) :=
  let accountIdx := perm.getD i 0
  let addr := st.addrs.getD accountIdx []
  match p2SlotsFrom v p addr accountIdx st r slotsToModifyPerAccount with
  | .crashed s => .crashed s
  | .failed e s => .failed e s
  | .ok (st2, r2) =>
    if p.kCommit = 0 then .crashed st2
    else if commitBoundary mM p.kCommit i then
      match store.stateCommit (i / p.kCommit + 1000000) st2.statedb with
      | .error e => .failed e st2
      | .ok root =>
        match store.trieCommit root with
        | .error e => .failed e st2
        | .ok _ =>
          .ok ({ st2 with
            currentRoot := root,
            commits := st2.commits ++
              [⟨.modification, i + 1, i / p.kCommit + 1000000, root⟩],
            statedb := stateNew root }, r2)
    else .ok (st2, r2)

/-- The phase-2 account loop from index i with fuel iterations left. -/
def p2LoopFrom (v : Variant) (p : Params) (store : Store) (mM : Nat)
    (perm : List Nat) (i : Nat) (st : RunState) (r : Rng) (fuel : Nat) :
    Res (RunState × Rng) :=
  match fuel with
  | 0 => .ok (st, r)
  | f + 1 =>
    match p2Account v p store mM perm i st r with
    | .ok (st1, r1) => p2LoopFrom v p store mM perm (i + 1) st1 r1 f
    | .crashed s => .crashed s
    | .failed e s => .failed e s

/-- Phase 2 in full: the loop over the first mM permuted accounts. -/
def phase2 (v : Variant) (p : Params) (store : Store) (mM : Nat) (perm : List Nat)
    (st : RunState) (r : Rng) : Res (RunState × Rng) :=
  p2LoopFrom v p store mM perm 0 st r mM

/-- Outcome of a whole run: normal termination, a Go runtime panic inside a phase,
or a reported commit failure inside a phase. -/
inductive Outcome where
  | ok
  | crashed (ph : Phase)
  | failed (ph : Phase) (msg : String)
deriving DecidableEq, Repr

/-- Result of a whole run. -/
structure RunResult where
  outcome : Outcome
  final : RunState
deriving DecidableEq, Repr

/-- The initial orchestrator state: a view opened at the empty root. -/
def initState : RunState :=
  { statedb := stateNew emptyRoot, currentRoot := emptyRoot, addrs := [],
    commits := [], trace := [], totalSlotsCreated := 0, totalSlotsModified := 0,
    reportEmitted := false }

/-- The whole benchmark run (main.go 61-199): phase 1 from the empty root with the
seed-42 stream r1, then the clamp mModify = min mModify nAccounts, the permutation
drawn from the time-seeded stream rMod, phase 2, and the final report. -/
def benchRun (v : Variant) (p : Params) (store : Store) (r1 rMod : Rng) : RunResult :=
  match phase1 v p store initState r1 with
  | .crashed st => ⟨.crashed .creation, st⟩
  | .failed e st => ⟨.failed .creation e, st⟩
  | .ok (st1, _) =>
    let mM := min p.mModify p.nAccounts
    match rMod.perm p.nAccounts with
    | none => ⟨.crashed .modification, st1⟩
    | some (permList, r2) =>
      match phase2 v p store mM permList st1 r2 with
      | .crashed st => ⟨.crashed .modification, st⟩
      | .failed e st => ⟨.failed .modification e, st⟩
      | .ok (st2, _) => ⟨.ok, { st2 with reportEmitted := true }⟩

/-- The root of the last successful commit, or the empty root if there is none. -/
def lastRoot (cs : List CommitEvent) : Root :=
  ((cs.getLast?).map CommitEvent.root).getD emptyRoot

/-- Projection of the commit log to (units processed, revision) pairs. -/
def commitPairs (cs : List CommitEvent) : List (Nat × Nat) :=
  cs.map fun e => (e.afterUnits, e.rev)

/-- The set of phase-1 revision numbers: floor(i/k) at each phase-1 boundary
(main.go 107-108). -/
def p1RevSet (n k : Nat) : Set Nat :=
  {rev | ∃ i, i < n ∧ commitBoundary n k i = true ∧ rev = i / k}

/-- The set of phase-2 revision numbers: floor(i/k) + 1000000 at each phase-2
boundary (main.go 168-169). -/
def p2RevSet (m k : Nat) : Set Nat :=
  {rev | ∃ i, i < m ∧ commitBoundary m k i = true ∧ rev = i / k + 1000000}

/-- A store whose commits always succeed, returning rev+1 as the new root. -/
def okStore : Store :=
  { stateCommit := fun rev _ => .ok (rev + 1), trieCommit := fun _ => .ok () }

/-- The constant-zero draw stream. -/
def zeroRng : Rng := ⟨fun _ => 0, 0⟩

/-- A draw stream whose first value is 1 and whose later values are 0. -/
def oneRng : Rng := ⟨fun n => if n = 0 then 1 else 0, 0⟩

/-- The creation-phase mutations of a run state, in order. -/
def creationTrace (st : RunState) : List Mutation :=
  st.trace.filterMap fun x => if x.1 = .creation then some x.2 else none

/-- The modification-phase mutations of a run state, in order. -/
def modTrace (st : RunState) : List Mutation :=
  st.trace.filterMap fun x => if x.1 = .modification then some x.2 else none

/-- The storage keys written by a list of mutations. -/
def setStateKeys (ms : List Mutation) : List Digest :=
  ms.filterMap fun m =>
    match m with
    | .setState _ k _ => some k
    | _ => none

/-! Correctness of the modelled rand.Perm: it always succeeds and returns a
permutation of the index range. -/

theorem take_set_of_lt {α : Type} (l : List α) :
    ∀ (k t : Nat) (a : α), k < t → (l.set k a).take t = (l.take t).set k a := by
  induction l with
  | nil => intro k t a _; simp
  | cons x xs ih =>
    intro k t a hkt
    cases k with
    | zero =>
      cases t with
      | zero => omega
      | succ t1 => simp
    | succ k1 =>
      cases t with
      | zero => omega
      | succ t1 =>
        simp only [List.set_cons_succ, List.take_succ_cons]
        rw [ih k1 t1 a (by omega)]

theorem take_succ_of_set {α : Type} (l : List α) (i : Nat) (b : α) (h : i < l.length) :
    (l.set i b).take (i + 1) = l.take i ++ [b] := by
  rw [List.set_eq_take_cons_drop b h]
  have hlen : (l.take i).length = i := by
    simp only [List.length_take]
    exact Nat.min_eq_left (Nat.le_of_lt h)
  calc List.take (i + 1) (l.take i ++ b :: l.drop (i + 1))
      = List.take ((l.take i).length + 1) (l.take i ++ b :: l.drop (i + 1)) := by rw [hlen]
    _ = l.take i ++ List.take 1 (b :: l.drop (i + 1)) := List.take_append 1
    _ = l.take i ++ [b] := by simp

theorem permStep_take_perm (m : List Nat) (i j : Nat) (hi : i < m.length) (hj : j ≤ i) :
    ((permStep m i j).take (i + 1)).Perm (i :: m.take i) := by
  rcases Nat.lt_or_ge j i with hji | hge
  · have hjm : j < m.length := Nat.lt_trans hji hi
    have hset : permStep m i j = (m.set i (m.getD j 0)).set j i := rfl
    have h1 : ((m.set i (m.getD j 0)).set j i).take (i + 1) =
        ((m.set i (m.getD j 0)).take (i + 1)).set j i :=
      take_set_of_lt _ j (i + 1) i (by omega)
    have h2 : (m.set i (m.getD j 0)).take (i + 1) = m.take i ++ [m.getD j 0] :=
      take_succ_of_set m i _ hi
    rw [hset, h1, h2]
    have hlen : (m.take i).length = i := by
      simp only [List.length_take]
      exact Nat.min_eq_left (Nat.le_of_lt hi)
    rw [List.set_append, if_pos (by rw [hlen]; exact hji)]
    have hjX : j < (m.take i).length := by rw [hlen]; exact hji
    have hgd : m.getD j 0 = (m.take i)[j] := by
      rw [List.getD_eq_getElem _ _ hjm]
      exact (List.getElem_take m).symm
    rw [hgd]
    have hdecomp : (m.take i).set j i =
        (m.take i).take j ++ i :: (m.take i).drop (j + 1) :=
      List.set_eq_take_cons_drop i hjX
    have hXdecomp : m.take i =
        (m.take i).take j ++ (m.take i)[j] :: (m.take i).drop (j + 1) := by
      conv_lhs => rw [← List.take_append_drop j (m.take i)]
      rw [List.drop_eq_getElem_cons hjX]
    rw [hdecomp]
    have s1 : (((m.take i).take j ++ i :: (m.take i).drop (j + 1)) ++ [(m.take i)[j]]).Perm
        ((m.take i)[j] :: ((m.take i).take j ++ i :: (m.take i).drop (j + 1))) :=
      List.perm_append_singleton _ _
    have s3 : ((m.take i)[j] :: ((m.take i).take j ++ i :: (m.take i).drop (j + 1))).Perm
        ((m.take i)[j] :: i :: ((m.take i).take j ++ (m.take i).drop (j + 1))) :=
      List.Perm.cons _ List.perm_middle
    have s4 : ((m.take i)[j] :: i :: ((m.take i).take j ++ (m.take i).drop (j + 1))).Perm
        (i :: (m.take i)[j] :: ((m.take i).take j ++ (m.take i).drop (j + 1))) :=
      List.Perm.swap _ _ _
    have s6 : (i :: (m.take i)[j] :: ((m.take i).take j ++ (m.take i).drop (j + 1))).Perm
        (i :: ((m.take i).take j ++ (m.take i)[j] :: (m.take i).drop (j + 1))) :=
      (List.Perm.cons i List.perm_middle).symm
    have hall := s1.trans (s3.trans (s4.trans s6))
    rw [← hXdecomp] at hall
    exact hall
  · have hij : j = i := Nat.le_antisymm hj hge
    subst hij
    have hstep : permStep m j j = m.set j j := by
      unfold permStep
      rw [List.set_set]
    rw [hstep, take_succ_of_set m j j hi]
    exact List.perm_append_singleton j (m.take j)

theorem permAux_spec (n : Nat) : ∀ (fuel i : Nat) (r : Rng) (m : List Nat),
    m.length = n → i + fuel = n → (m.take i).Perm (List.range i) →
    ∃ m1 r1, permAux r m i fuel = some (m1, r1) ∧ m1.length = n ∧
      m1.Perm (List.range n) := by
  intro fuel
  induction fuel with
  | zero =>
    intro i r m hlen hin hperm
    refine ⟨m, r, rfl, hlen, ?_⟩
    have hi : i = n := by omega
    subst hi
    rw [← hlen, List.take_length] at hperm
    rw [← hlen]
    exact hperm
  | succ f ih =>
    intro i r m hlen hin hperm
    have hintn : r.intn (i + 1) = some (r.stream r.pos % (i + 1), ⟨r.stream, r.pos + 1⟩) := by
      simp [Rng.intn]
    have hj : r.stream r.pos % (i + 1) ≤ i := by
      have := Nat.mod_lt (r.stream r.pos) (show 0 < i + 1 by omega)
      omega
    have hi : i < m.length := by omega
    simp only [permAux, hintn]
    apply ih (i + 1) _ (permStep m i (r.stream r.pos % (i + 1)))
      (by simp [permStep, hlen]) (by omega)
    have s1 : ((permStep m i (r.stream r.pos % (i + 1))).take (i + 1)).Perm (i :: m.take i) :=
      permStep_take_perm m i _ hi hj
    have s2 : (i :: m.take i).Perm (i :: List.range i) := hperm.cons i
    have s3 : (i :: List.range i).Perm (List.range (i + 1)) := by
      rw [List.range_succ]
      exact (List.perm_append_singleton i _).symm
    exact s1.trans (s2.trans s3)

theorem perm_spec (r : Rng) (n : Nat) :
    ∃ pl r1, r.perm n = some (pl, r1) ∧ pl.length = n ∧ pl.Perm (List.range n) := by
  unfold Rng.perm
  exact permAux_spec n n 0 r (List.replicate n 0) (by simp) (by omega) (by simp)

theorem perm_entries_lt (r : Rng) (n : Nat) (pl : List Nat) (r1 : Rng)
    (h : r.perm n = some (pl, r1)) : pl.length = n ∧ ∀ x ∈ pl, x < n := by
  obtain ⟨pl2, r2, h2, hlen, hperm⟩ := perm_spec r n
  rw [h] at h2
  have hpr : pl = pl2 ∧ r1 = r2 := by simpa using h2
  obtain ⟨hpl, -⟩ := hpr
  subst hpl
  exact ⟨hlen, fun x hx => List.mem_range.mp (hperm.mem_iff.mp hx)⟩

/-! Characterisation of one phase-1 slot mutation, and facts about the phase-1
inner loop, account body and account loop. -/

/-- Value selected by the phase-1 policy for a stream positioned at the dice draw:
zero when the dice lands below 20, the small value 1 below 30, otherwise the next
raw 32-byte word of the stream. -/
def p1ValueOf (r : Rng) : Word :=
  if r.stream r.pos % 100 < 20 then 0
  else if r.stream r.pos % 100 < 30 then 1
  else r.stream (r.pos + 1) % 2 ^ 256

/-- Stream cursor after one phase-1 slot mutation: one draw for the dice and, on
the random branch only, one more for the value. -/
def p1RngAfter (r : Rng) : Rng :=
  ⟨r.stream, if r.stream r.pos % 100 < 30 then r.pos + 1 else r.pos + 2⟩

theorem p1Slot_spec (v : Variant) (addr : Digest) (i j : Nat) (st : RunState) (r : Rng) :
    p1Slot v addr i j st r =
      .ok ({ st with
        totalSlotsCreated := st.totalSlotsCreated + 1,
        statedb := st.statedb.setState addr (p1SlotKey v i j) (p1ValueOf r),
        trace := st.trace ++
          [(.creation, .setState addr (p1SlotKey v i j) (p1ValueOf r))] },
        p1RngAfter r) := by
  have h100 : r.intn 100 = some (r.stream r.pos % 100, ⟨r.stream, r.pos + 1⟩) := by
    simp [Rng.intn]
  simp only [p1Slot, h100]
  by_cases h1 : r.stream r.pos % 100 < 20
  · have h2 : r.stream r.pos % 100 < 30 := by omega
    simp [p1ValueOf, p1RngAfter, h1, h2]
  · by_cases h2 : r.stream r.pos % 100 < 30
    · simp [p1ValueOf, p1RngAfter, h1, h2]
    · simp [p1ValueOf, p1RngAfter, Rng.read32, h1, h2]

theorem p1SlotsFrom_spec (v : Variant) (addr : Digest) (i : Nat) :
    ∀ (cnt j : Nat) (st : RunState) (r : Rng),
    ∃ st1 r1 L,
      p1SlotsFrom v addr i j st r cnt = .ok (st1, r1) ∧
      st1.trace = st.trace ++ L ∧ L.length = cnt ∧
      (∀ x ∈ L, ∃ jx w, x = (Phase.creation, Mutation.setState addr (p1SlotKey v i jx) w)) ∧
      st1.commits = st.commits ∧ st1.addrs = st.addrs ∧
      st1.currentRoot = st.currentRoot ∧ st1.reportEmitted = st.reportEmitted ∧
      st1.totalSlotsModified = st.totalSlotsModified := by
  intro cnt
  induction cnt with
  | zero =>
    intro j st r
    exact ⟨st, r, [], rfl, by simp, rfl, by simp, rfl, rfl, rfl, rfl, rfl⟩
  | succ c ih =>
    intro j st r
    obtain ⟨st1, r1, L, hrun, htr, hlen, hshape, hc, ha, hcr, hre, htm⟩ :=
      ih (j + 1)
        { st with
          totalSlotsCreated := st.totalSlotsCreated + 1,
          statedb := st.statedb.setState addr (p1SlotKey v i j) (p1ValueOf r),
          trace := st.trace ++
            [(.creation, .setState addr (p1SlotKey v i j) (p1ValueOf r))] }
        (p1RngAfter r)
    refine ⟨st1, r1,
      (Phase.creation, Mutation.setState addr (p1SlotKey v i j) (p1ValueOf r)) :: L,
      ?_, ?_, by simp [hlen], ?_, hc, ha, hcr, hre, htm⟩
    · simp only [p1SlotsFrom, p1Slot_spec]
      exact hrun
    · rw [htr]
      simp
    · intro x hx
      rcases List.mem_cons.mp hx with hx | hx
      · exact ⟨j, p1ValueOf r, hx⟩
      · exact hshape x hx

/-- Shape of a trace item produced while processing phase-1 account i: it is
tagged with the creation phase, and if it is a storage write its address is the
account's address and its key follows the phase-1 derivation for account i. -/
def p1ItemFor (v : Variant) (i : Nat) (x : Phase × Mutation) : Prop :=
  x.1 = Phase.creation ∧
  ∀ a k w, x.2 = Mutation.setState a k w → a = mkAddress i ∧ ∃ jx, k = p1SlotKey v i jx

/-- Shape of a commit event recorded while processing phase-1 account i. -/
def p1EventFor (p : Params) (i : Nat) (e : CommitEvent) : Prop :=
  e.phase = Phase.creation ∧ commitBoundary p.nAccounts p.kCommit i = true ∧
  e.rev = i / p.kCommit ∧ e.afterUnits = i + 1

theorem lastRoot_concat (cs : List CommitEvent) (e : CommitEvent) :
    lastRoot (cs ++ [e]) = e.root := by
  simp [lastRoot, List.getLast?_concat]

theorem p1ItemFor_balance (v : Variant) (i : Nat) :
    p1ItemFor v i (Phase.creation, Mutation.setBalance (mkAddress i) balanceValue) := by
  refine ⟨rfl, ?_⟩
  intro a k w h
  simp at h

theorem p1ItemFor_nonce (v : Variant) (i : Nat) :
    p1ItemFor v i (Phase.creation, Mutation.setNonce (mkAddress i) i) := by
  refine ⟨rfl, ?_⟩
  intro a k w h
  simp at h

theorem p1ItemFor_of_slots (v : Variant) (i : Nat) (L : List (Phase × Mutation))
    (h : ∀ x ∈ L, ∃ jx w,
      x = (Phase.creation, Mutation.setState (mkAddress i) (p1SlotKey v i jx) w)) :
    ∀ x ∈ L, p1ItemFor v i x := by
  intro x hx
  obtain ⟨jx, w, rfl⟩ := h x hx
  refine ⟨rfl, ?_⟩
  intro a k w2 h2
  simp only [Mutation.setState.injEq] at h2
  exact ⟨h2.1.symm, jx, h2.2.1.symm⟩

theorem p1Account_facts (v : Variant) (p : Params) (store : Store) (i : Nat)
    (st : RunState) (r : Rng) :
    ∃ L C,
      (p1Account v p store i st r).state.reportEmitted = st.reportEmitted ∧
      (p1Account v p store i st r).state.totalSlotsModified = st.totalSlotsModified ∧
      (p1Account v p store i st r).state.addrs = st.addrs ++ [mkAddress i] ∧
      (p1Account v p store i st r).state.trace = st.trace ++ L ∧
      (∀ x ∈ L, p1ItemFor v i x) ∧
      (p1Account v p store i st r).state.commits = st.commits ++ C ∧
      (∀ e ∈ C, p1EventFor p i e) ∧
      (st.currentRoot = lastRoot st.commits →
        (p1Account v p store i st r).state.currentRoot =
          lastRoot ((p1Account v p store i st r).state.commits)) := by
  have hpreShape : ∀ x ∈ [(Phase.creation, Mutation.setBalance (mkAddress i) balanceValue),
      (Phase.creation, Mutation.setNonce (mkAddress i) i)], p1ItemFor v i x := by
    intro x hx
    rcases List.mem_cons.mp hx with rfl | hx
    · exact p1ItemFor_balance v i
    · rcases List.mem_cons.mp hx with rfl | hx
      · exact p1ItemFor_nonce v i
      · simp at hx
  cases hv : r.intn (p.nSlots * 2) with
  | none =>
    refine ⟨[(Phase.creation, Mutation.setBalance (mkAddress i) balanceValue),
             (Phase.creation, Mutation.setNonce (mkAddress i) i)], [], ?_⟩
    simp only [p1Account, hv, Res.state, p1Pre]
    exact ⟨by simp, by simp, by simp, by simp, hpreShape, by simp, by simp, by simp⟩
  | some pair =>
    obtain ⟨vSlots, r1⟩ := pair
    obtain ⟨st2, r2, L, hrun, htr, hlen, hshape, hc, ha, hcr, hre, htm⟩ :=
      p1SlotsFrom_spec v (mkAddress i) i vSlots 0 (p1Pre i st) r1
    have hL2 : ∀ x ∈ [(Phase.creation, Mutation.setBalance (mkAddress i) balanceValue),
        (Phase.creation, Mutation.setNonce (mkAddress i) i)] ++ L, p1ItemFor v i x := by
      intro x hx
      rcases List.mem_append.mp hx with hx | hx
      · exact hpreShape x hx
      · exact p1ItemFor_of_slots v i L hshape x hx
    have htr2 : st2.trace = st.trace ++
        ([(Phase.creation, Mutation.setBalance (mkAddress i) balanceValue),
          (Phase.creation, Mutation.setNonce (mkAddress i) i)] ++ L) := by
      rw [htr]
      simp [p1Pre]
    have hc2 : st2.commits = st.commits := hc
    have ha2 : st2.addrs = st.addrs ++ [mkAddress i] := ha
    have hcr2 : st2.currentRoot = st.currentRoot := hcr
    have hre2 : st2.reportEmitted = st.reportEmitted := hre
    have htm2 : st2.totalSlotsModified = st.totalSlotsModified := htm
    by_cases hk : p.kCommit = 0
    · refine ⟨[(Phase.creation, Mutation.setBalance (mkAddress i) balanceValue),
               (Phase.creation, Mutation.setNonce (mkAddress i) i)] ++ L, [], ?_⟩
      simp only [p1Account, hv, hrun, if_pos hk, Res.state]
      refine ⟨hre2, htm2, ha2, htr2, hL2, by simp [hc2], by simp, ?_⟩
      intro h
      rw [hcr2, hc2, h]
    · cases hbnd : commitBoundary p.nAccounts p.kCommit i with
      | false =>
        refine ⟨[(Phase.creation, Mutation.setBalance (mkAddress i) balanceValue),
               (Phase.creation, Mutation.setNonce (mkAddress i) i)] ++ L, [], ?_⟩
        simp only [p1Account, hv, hrun, if_neg hk, hbnd, Bool.false_eq_true, if_false,
          Res.state]
        refine ⟨hre2, htm2, ha2, htr2, hL2, by simp [hc2], by simp, ?_⟩
        intro h
        rw [hcr2, hc2, h]
      | true =>
        cases hsc : store.stateCommit (i / p.kCommit) st2.statedb with
        | error e =>
          refine ⟨[(Phase.creation, Mutation.setBalance (mkAddress i) balanceValue),
               (Phase.creation, Mutation.setNonce (mkAddress i) i)] ++ L, [], ?_⟩
          simp only [p1Account, hv, hrun, if_neg hk, hbnd, if_true, hsc, Res.state]
          refine ⟨hre2, htm2, ha2, htr2, hL2, by simp [hc2], by simp, ?_⟩
          intro h
          rw [hcr2, hc2, h]
        | ok root =>
          cases htc : store.trieCommit root with
          | error e =>
            refine ⟨[(Phase.creation, Mutation.setBalance (mkAddress i) balanceValue),
               (Phase.creation, Mutation.setNonce (mkAddress i) i)] ++ L, [], ?_⟩
            simp only [p1Account, hv, hrun, if_neg hk, hbnd, if_true, hsc, htc, Res.state]
            refine ⟨hre2, htm2, ha2, htr2, hL2, by simp [hc2], by simp, ?_⟩
            intro h
            rw [hcr2, hc2, h]
          | ok u =>
            refine ⟨[(Phase.creation, Mutation.setBalance (mkAddress i) balanceValue),
               (Phase.creation, Mutation.setNonce (mkAddress i) i)] ++ L,
              [⟨Phase.creation, i + 1, i / p.kCommit, root⟩], ?_⟩
            simp only [p1Account, hv, hrun, if_neg hk, hbnd, if_true, hsc, htc, Res.state]
            refine ⟨hre2, htm2, ha2, htr2, hL2, by simp [hc2], ?_, ?_⟩
            · intro e he
              rcases List.mem_singleton.mp he with rfl
              exact ⟨rfl, hbnd, rfl, rfl⟩
            · intro _
              rw [hc2, lastRoot_concat]

theorem p1Account_ok_commits (v : Variant) (p : Params) (store : Store) (i : Nat)
    (st : RunState) (r : Rng) (st1 : RunState) (r1 : Rng)
    (h : p1Account v p store i st r = .ok (st1, r1)) :
    (commitBoundary p.nAccounts p.kCommit i = true →
      ∃ root, st1.commits = st.commits ++ [⟨Phase.creation, i + 1, i / p.kCommit, root⟩]) ∧
    (commitBoundary p.nAccounts p.kCommit i = false → st1.commits = st.commits) := by
  cases hv : r.intn (p.nSlots * 2) with
  | none =>
    rw [p1Account, hv] at h
    exact Res.noConfusion h
  | some pair =>
    obtain ⟨vSlots, r2⟩ := pair
    obtain ⟨st2, r3, L, hrun, htr, hlen, hshape, hc, ha, hcr, hre, htm⟩ :=
      p1SlotsFrom_spec v (mkAddress i) i vSlots 0 (p1Pre i st) r2
    have hcc : st2.commits = st.commits := hc
    simp only [p1Account, hv, hrun] at h
    by_cases hk : p.kCommit = 0
    · rw [if_pos hk] at h
      exact Res.noConfusion h
    · rw [if_neg hk] at h
      cases hbnd : commitBoundary p.nAccounts p.kCommit i with
      | false =>
        simp only [hbnd, Bool.false_eq_true, if_false, Res.ok.injEq, Prod.mk.injEq] at h
        obtain ⟨hst, -⟩ := h
        subst hst
        exact ⟨fun hb => absurd hb (by simp), fun _ => hcc⟩
      | true =>
        simp only [hbnd, if_true] at h
        cases hsc : store.stateCommit (i / p.kCommit) st2.statedb with
        | error e =>
          rw [hsc] at h
          exact Res.noConfusion h
        | ok root =>
          simp only [hsc] at h
          cases htc : store.trieCommit root with
          | error e =>
            rw [htc] at h
            exact Res.noConfusion h
          | ok u =>
            simp only [htc, Res.ok.injEq, Prod.mk.injEq] at h
            obtain ⟨hst, -⟩ := h
            refine ⟨fun _ => ⟨root, ?_⟩, fun hb => absurd hb (by simp)⟩
            rw [← hst]
            exact congrArg
              (· ++ [⟨Phase.creation, i + 1, i / p.kCommit, root⟩]) hcc

theorem p1Account_crashed_zero (v : Variant) (p : Params) (store : Store) (i : Nat)
    (st : RunState) (r : Rng) (h : p.nSlots = 0) :
    p1Account v p store i st r = .crashed (p1Pre i st) := by
  have hv : r.intn (p.nSlots * 2) = none := by simp [Rng.intn, h]
  simp [p1Account, hv]

theorem p1Account_ne_crashed (v : Variant) (p : Params) (store : Store) (i : Nat)
    (st : RunState) (r : Rng) (h1 : p.nSlots ≠ 0) (hk : p.kCommit ≠ 0) :
    ∀ s, p1Account v p store i st r ≠ .crashed s := by
  intro s
  have hnz : ¬ (p.nSlots * 2 = 0) := by omega
  have hv : r.intn (p.nSlots * 2) =
      some (r.stream r.pos % (p.nSlots * 2), ⟨r.stream, r.pos + 1⟩) := by
    simp [Rng.intn, hnz]
  obtain ⟨st2, r3, L, hrun, -, -, -, -, -, -, -, -⟩ :=
    p1SlotsFrom_spec v (mkAddress i) i (r.stream r.pos % (p.nSlots * 2)) 0 (p1Pre i st)
      ⟨r.stream, r.pos + 1⟩
  simp only [p1Account, hv, hrun]
  rw [if_neg hk]
  cases hbnd : commitBoundary p.nAccounts p.kCommit i with
  | false => simp [hbnd]
  | true =>
    simp only [hbnd, if_true]
    cases hsc : store.stateCommit (i / p.kCommit) st2.statedb with
    | error e => simp
    | ok root =>
      cases htc : store.trieCommit root with
      | error e => simp [htc]
      | ok u => simp [htc]

theorem p1LoopFrom_facts (v : Variant) (p : Params) (store : Store) :
    ∀ (fuel i : Nat) (st : RunState) (r : Rng),
    ∃ L C,
      (p1LoopFrom v p store i st r fuel).state.reportEmitted = st.reportEmitted ∧
      (p1LoopFrom v p store i st r fuel).state.totalSlotsModified = st.totalSlotsModified ∧
      (∃ A, (p1LoopFrom v p store i st r fuel).state.addrs = st.addrs ++ A) ∧
      (p1LoopFrom v p store i st r fuel).state.trace = st.trace ++ L ∧
      (∀ x ∈ L, ∃ ix, i ≤ ix ∧ ix < i + fuel ∧ p1ItemFor v ix x) ∧
      (p1LoopFrom v p store i st r fuel).state.commits = st.commits ++ C ∧
      (∀ e ∈ C, ∃ ix, i ≤ ix ∧ ix < i + fuel ∧ p1EventFor p ix e) ∧
      (st.currentRoot = lastRoot st.commits →
        (p1LoopFrom v p store i st r fuel).state.currentRoot =
          lastRoot ((p1LoopFrom v p store i st r fuel).state.commits)) := by
  intro fuel
  induction fuel with
  | zero =>
    intro i st r
    refine ⟨[], [], ?_⟩
    simp only [p1LoopFrom, Res.state]
    exact ⟨by simp, by simp, ⟨[], by simp⟩, by simp, by simp, by simp, by simp, by simp⟩
  | succ f ih =>
    intro i st r
    obtain ⟨L1, C1, f1, f2, f3, f4, f5, f6, f7, f8⟩ := p1Account_facts v p store i st r
    cases hacc : p1Account v p store i st r with
    | ok a =>
      obtain ⟨st1, r1⟩ := a
      rw [hacc] at f1 f2 f3 f4 f6 f8
      simp only [Res.state] at f1 f2 f3 f4 f6 f8
      obtain ⟨L2, C2, g1, g2, g3, g4, g5, g6, g7, g8⟩ := ih (i + 1) st1 r1
      have hloop : p1LoopFrom v p store i st r (f + 1) =
          p1LoopFrom v p store (i + 1) st1 r1 f := by
        simp only [p1LoopFrom, hacc]
      refine ⟨L1 ++ L2, C1 ++ C2, ?_⟩
      rw [hloop]
      refine ⟨by rw [g1, f1], by rw [g2, f2], ?_, ?_, ?_, ?_, ?_, ?_⟩
      · obtain ⟨A2, hA2⟩ := g3
        exact ⟨[mkAddress i] ++ A2, by rw [hA2, f3, List.append_assoc]⟩
      · rw [g4, f4, List.append_assoc]
      · intro x hx
        rcases List.mem_append.mp hx with hx | hx
        · exact ⟨i, Nat.le_refl i, by omega, f5 x hx⟩
        · obtain ⟨ix, h1, h2, h3⟩ := g5 x hx
          exact ⟨ix, by omega, by omega, h3⟩
      · rw [g6, f6, List.append_assoc]
      · intro e he
        rcases List.mem_append.mp he with he | he
        · exact ⟨i, Nat.le_refl i, by omega, f7 e he⟩
        · obtain ⟨ix, h1, h2, h3⟩ := g7 e he
          exact ⟨ix, by omega, by omega, h3⟩
      · intro h
        exact g8 (f8 h)
    | crashed s =>
      rw [hacc] at f1 f2 f3 f4 f6 f8
      simp only [Res.state] at f1 f2 f3 f4 f6 f8
      have hloop : p1LoopFrom v p store i st r (f + 1) = .crashed s := by
        simp only [p1LoopFrom, hacc]
      refine ⟨L1, C1, ?_⟩
      rw [hloop]
      exact ⟨f1, f2, ⟨[mkAddress i], f3⟩, f4,
        fun x hx => ⟨i, Nat.le_refl i, by omega, f5 x hx⟩, f6,
        fun e he => ⟨i, Nat.le_refl i, by omega, f7 e he⟩, f8⟩
    | failed e s =>
      rw [hacc] at f1 f2 f3 f4 f6 f8
      simp only [Res.state] at f1 f2 f3 f4 f6 f8
      have hloop : p1LoopFrom v p store i st r (f + 1) = .failed e s := by
        simp only [p1LoopFrom, hacc]
      refine ⟨L1, C1, ?_⟩
      rw [hloop]
      exact ⟨f1, f2, ⟨[mkAddress i], f3⟩, f4,
        fun x hx => ⟨i, Nat.le_refl i, by omega, f5 x hx⟩, f6,
        fun e2 he => ⟨i, Nat.le_refl i, by omega, f7 e2 he⟩, f8⟩

theorem p1LoopFrom_ok (v : Variant) (p : Params) (store : Store) :
    ∀ (fuel i : Nat) (st : RunState) (r : Rng) (st1 : RunState) (r1 : Rng),
    p1LoopFrom v p store i st r fuel = .ok (st1, r1) →
    commitPairs st1.commits = commitPairs st.commits ++
      ((List.range' i fuel).filter (commitBoundary p.nAccounts p.kCommit)).map
        (fun x => (x + 1, x / p.kCommit)) ∧
    st1.addrs = st.addrs ++ (List.range' i fuel).map mkAddress := by
  intro fuel
  induction fuel with
  | zero =>
    intro i st r st1 r1 h
    simp only [p1LoopFrom, Res.ok.injEq, Prod.mk.injEq] at h
    obtain ⟨hst, -⟩ := h
    subst hst
    simp [List.range']
  | succ f ih =>
    intro i st r st1 r1 h
    cases hacc : p1Account v p store i st r with
    | ok a =>
      obtain ⟨stA, rA⟩ := a
      have hloop : p1LoopFrom v p store (i + 1) stA rA f = .ok (st1, r1) := by
        rw [← h]
        simp only [p1LoopFrom, hacc]
      obtain ⟨hpairs, haddrs⟩ := ih (i + 1) stA rA st1 r1 hloop
      obtain ⟨hcB, hcN⟩ := p1Account_ok_commits v p store i st r stA rA hacc
      obtain ⟨L1, C1, f1, f2, f3, f4, f5, f6, f7, f8⟩ := p1Account_facts v p store i st r
      rw [hacc] at f3
      simp only [Res.state] at f3
      constructor
      · rw [hpairs, List.range'_succ, List.filter_cons]
        cases hbnd : commitBoundary p.nAccounts p.kCommit i with
        | true =>
          obtain ⟨root, hcomm⟩ := hcB hbnd
          rw [hcomm]
          simp [commitPairs]
        | false =>
          rw [hcN hbnd]
          simp
      · rw [haddrs, f3, List.range'_succ]
        simp
    | crashed s =>
      rw [p1LoopFrom, hacc] at h
      exact Res.noConfusion h
    | failed e s =>
      rw [p1LoopFrom, hacc] at h
      exact Res.noConfusion h

theorem p1LoopFrom_ne_crashed (v : Variant) (p : Params) (store : Store)
    (h1 : p.nSlots ≠ 0) (hk : p.kCommit ≠ 0) :
    ∀ (fuel i : Nat) (st : RunState) (r : Rng) (s : RunState),
    p1LoopFrom v p store i st r fuel ≠ .crashed s := by
  intro fuel
  induction fuel with
  | zero =>
    intro i st r s h
    rw [p1LoopFrom] at h
    exact Res.noConfusion h
  | succ f ih =>
    intro i st r s h
    cases hacc : p1Account v p store i st r with
    | ok a =>
      obtain ⟨stA, rA⟩ := a
      rw [p1LoopFrom, hacc] at h
      exact ih (i + 1) stA rA s h
    | crashed s2 =>
      exact p1Account_ne_crashed v p store i st r h1 hk s2 hacc
    | failed e s2 =>
      rw [p1LoopFrom, hacc] at h
      exact Res.noConfusion h

/-! Characterisation of one phase-2 slot mutation, and facts about the phase-2
inner loop, account body and account loop. -/

theorem p2Slot_spec (v : Variant) (p : Params) (addr : Digest) (idx : Nat)
    (st : RunState) (r : Rng) (h : p.nSlots ≠ 0) :
    p2Slot v p addr idx st r =
      .ok ({ st with
        totalSlotsModified := st.totalSlotsModified + 1,
        statedb := st.statedb.setState addr (p2SlotKey v idx (r.stream r.pos % p.nSlots))
          (r.stream (r.pos + 1) % 2 ^ 256),
        trace := st.trace ++ [(.modification, .setState addr
          (p2SlotKey v idx (r.stream r.pos % p.nSlots))
          (r.stream (r.pos + 1) % 2 ^ 256))] },
        ⟨r.stream, r.pos + 2⟩) := by
  have hv : r.intn p.nSlots = some (r.stream r.pos % p.nSlots, ⟨r.stream, r.pos + 1⟩) := by
    simp [Rng.intn, h]
  simp [p2Slot, hv, Rng.read32]

theorem p2Slot_crash (v : Variant) (p : Params) (addr : Digest) (idx : Nat)
    (st : RunState) (r : Rng) (h : p.nSlots = 0) :
    p2Slot v p addr idx st r =
      .crashed { st with totalSlotsModified := st.totalSlotsModified + 1 } := by
  have hv : r.intn p.nSlots = none := by simp [Rng.intn, h]
  simp [p2Slot, hv]

theorem p2SlotsFrom_spec (v : Variant) (p : Params) (addr : Digest) (idx : Nat)
    (h : p.nSlots ≠ 0) :
    ∀ (cnt : Nat) (st : RunState) (r : Rng),
    ∃ st1 r1 L,
      p2SlotsFrom v p addr idx st r cnt = .ok (st1, r1) ∧
      st1.trace = st.trace ++ L ∧ L.length = cnt ∧
      (∀ x ∈ L, ∃ s w, s < p.nSlots ∧
        x = (Phase.modification, Mutation.setState addr (p2SlotKey v idx s) w)) ∧
      st1.commits = st.commits ∧ st1.addrs = st.addrs ∧
      st1.currentRoot = st.currentRoot ∧ st1.reportEmitted = st.reportEmitted ∧
      st1.totalSlotsCreated = st.totalSlotsCreated := by
  intro cnt
  induction cnt with
  | zero =>
    intro st r
    exact ⟨st, r, [], rfl, by simp, rfl, by simp, rfl, rfl, rfl, rfl, rfl⟩
  | succ c ih =>
    intro st r
    obtain ⟨st1, r1, L, hrun, htr, hlen, hshape, hc, ha, hcr, hre, htc⟩ :=
      ih { st with
        totalSlotsModified := st.totalSlotsModified + 1,
        statedb := st.statedb.setState addr (p2SlotKey v idx (r.stream r.pos % p.nSlots))
          (r.stream (r.pos + 1) % 2 ^ 256),
        trace := st.trace ++ [(.modification, .setState addr
          (p2SlotKey v idx (r.stream r.pos % p.nSlots))
          (r.stream (r.pos + 1) % 2 ^ 256))] }
        ⟨r.stream, r.pos + 2⟩
    refine ⟨st1, r1,
      (Phase.modification, Mutation.setState addr
        (p2SlotKey v idx (r.stream r.pos % p.nSlots))
        (r.stream (r.pos + 1) % 2 ^ 256)) :: L,
      ?_, ?_, by simp [hlen], ?_, hc, ha, hcr, hre, htc⟩
    · simp only [p2SlotsFrom, p2Slot_spec v p addr idx st r h]
      exact hrun
    · rw [htr]
      simp
    · intro x hx
      rcases List.mem_cons.mp hx with hx | hx
      · exact ⟨r.stream r.pos % p.nSlots, r.stream (r.pos + 1) % 2 ^ 256,
          Nat.mod_lt _ (Nat.pos_of_ne_zero h), hx⟩
      · exact hshape x hx

theorem p2SlotsFrom_crash (v : Variant) (p : Params) (addr : Digest) (idx : Nat)
    (st : RunState) (r : Rng) (c : Nat) (h : p.nSlots = 0) :
    p2SlotsFrom v p addr idx st r (c + 1) =
      .crashed { st with totalSlotsModified := st.totalSlotsModified + 1 } := by
  simp only [p2SlotsFrom, p2Slot_crash v p addr idx st r h]

/-- Shape of a trace item produced while processing the phase-2 account at
permuted position q: it is tagged with the modification phase, its address is the
phase-1 address of account idx, and its key follows the (shared) phase-2 slot-key
derivation for account idx with a slot index below nSlots. -/
def p2ItemFor (v : Variant) (p : Params) (addrs : List Digest) (idx : Nat)
    (x : Phase × Mutation) : Prop :=
  x.1 = Phase.modification ∧
  ∀ a k w, x.2 = Mutation.setState a k w →
    a = addrs.getD idx [] ∧ ∃ s, s < p.nSlots ∧ k = p2SlotKey v idx s

/-- Shape of a commit event recorded while processing phase-2 loop index i. -/
def p2EventFor (p : Params) (mM i : Nat) (e : CommitEvent) : Prop :=
  e.phase = Phase.modification ∧ commitBoundary mM p.kCommit i = true ∧
  e.rev = i / p.kCommit + 1000000 ∧ e.afterUnits = i + 1

theorem p2ItemFor_of_slots (v : Variant) (p : Params) (addrs : List Digest) (idx : Nat)
    (L : List (Phase × Mutation))
    (h : ∀ x ∈ L, ∃ s w, s < p.nSlots ∧
      x = (Phase.modification, Mutation.setState (addrs.getD idx []) (p2SlotKey v idx s) w)) :
    ∀ x ∈ L, p2ItemFor v p addrs idx x := by
  intro x hx
  obtain ⟨s, w, hs, rfl⟩ := h x hx
  refine ⟨rfl, ?_⟩
  intro a k w2 h2
  simp only [Mutation.setState.injEq] at h2
  exact ⟨h2.1.symm, s, hs, h2.2.1.symm⟩

theorem p2Account_facts (v : Variant) (p : Params) (store : Store) (mM : Nat)
    (perm : List Nat) (i : Nat) (st : RunState) (r : Rng) :
    ∃ L C,
      (p2Account v p store mM perm i st r).state.reportEmitted = st.reportEmitted ∧
      (p2Account v p store mM perm i st r).state.totalSlotsCreated = st.totalSlotsCreated ∧
      (p2Account v p store mM perm i st r).state.addrs = st.addrs ∧
      (p2Account v p store mM perm i st r).state.trace = st.trace ++ L ∧
      (∀ x ∈ L, p2ItemFor v p st.addrs (perm.getD i 0) x) ∧
      (p2Account v p store mM perm i st r).state.commits = st.commits ++ C ∧
      (∀ e ∈ C, p2EventFor p mM i e) ∧
      (st.currentRoot = lastRoot st.commits →
        (p2Account v p store mM perm i st r).state.currentRoot =
          lastRoot ((p2Account v p store mM perm i st r).state.commits)) := by
  by_cases hns : p.nSlots = 0
  · have hcrash : p2SlotsFrom v p (st.addrs.getD (perm.getD i 0) []) (perm.getD i 0) st r
        slotsToModifyPerAccount =
          .crashed { st with totalSlotsModified := st.totalSlotsModified + 1 } := by
      rw [show slotsToModifyPerAccount = 499 + 1 from rfl]
      exact p2SlotsFrom_crash v p _ _ st r 499 hns
    refine ⟨[], [], ?_⟩
    simp only [p2Account, hcrash, Res.state]
    exact ⟨by simp, by simp, by simp, by simp, by simp, by simp, by simp, by simp⟩
  · obtain ⟨st2, r2, L, hrun, htr, hlen, hshape, hc, ha, hcr, hre, htc2⟩ :=
      p2SlotsFrom_spec v p (st.addrs.getD (perm.getD i 0) []) (perm.getD i 0) hns
        slotsToModifyPerAccount st r
    have hL : ∀ x ∈ L, p2ItemFor v p st.addrs (perm.getD i 0) x :=
      p2ItemFor_of_slots v p st.addrs (perm.getD i 0) L hshape
    by_cases hk : p.kCommit = 0
    · refine ⟨L, [], ?_⟩
      simp only [p2Account, hrun, if_pos hk, Res.state]
      refine ⟨hre, htc2, ha, htr, hL, by simp [hc], by simp, ?_⟩
      intro h
      rw [hcr, hc, h]
    · cases hbnd : commitBoundary mM p.kCommit i with
      | false =>
        refine ⟨L, [], ?_⟩
        simp only [p2Account, hrun, if_neg hk, hbnd, Bool.false_eq_true, if_false, Res.state]
        refine ⟨hre, htc2, ha, htr, hL, by simp [hc], by simp, ?_⟩
        intro h
        rw [hcr, hc, h]
      | true =>
        cases hsc : store.stateCommit (i / p.kCommit + 1000000) st2.statedb with
        | error e =>
          refine ⟨L, [], ?_⟩
          simp only [p2Account, hrun, if_neg hk, hbnd, if_true, hsc, Res.state]
          refine ⟨hre, htc2, ha, htr, hL, by simp [hc], by simp, ?_⟩
          intro h
          rw [hcr, hc, h]
        | ok root =>
          cases htc : store.trieCommit root with
          | error e =>
            refine ⟨L, [], ?_⟩
            simp only [p2Account, hrun, if_neg hk, hbnd, if_true, hsc, htc, Res.state]
            refine ⟨hre, htc2, ha, htr, hL, by simp [hc], by simp, ?_⟩
            intro h
            rw [hcr, hc, h]
          | ok u =>
            refine ⟨L, [⟨Phase.modification, i + 1, i / p.kCommit + 1000000, root⟩], ?_⟩
            simp only [p2Account, hrun, if_neg hk, hbnd, if_true, hsc, htc, Res.state]
            refine ⟨hre, htc2, ha, htr, hL, by simp [hc], ?_, ?_⟩
            · intro e he
              rcases List.mem_singleton.mp he with rfl
              exact ⟨rfl, hbnd, rfl, rfl⟩
            · intro _
              rw [hc, lastRoot_concat]

theorem p2Account_ok (v : Variant) (p : Params) (store : Store) (mM : Nat)
    (perm : List Nat) (i : Nat) (st : RunState) (r : Rng) (st1 : RunState) (r1 : Rng)
    (hns : p.nSlots ≠ 0)
    (h : p2Account v p store mM perm i st r = .ok (st1, r1)) :
    (commitBoundary mM p.kCommit i = true →
      ∃ root, st1.commits = st.commits ++
        [⟨Phase.modification, i + 1, i / p.kCommit + 1000000, root⟩]) ∧
    (commitBoundary mM p.kCommit i = false → st1.commits = st.commits) ∧
    (∃ L, st1.trace = st.trace ++ L ∧ L.length = slotsToModifyPerAccount) := by
  obtain ⟨st2, r2, L, hrun, htr, hlen, hshape, hc, ha, hcr, hre, htc2⟩ :=
    p2SlotsFrom_spec v p (st.addrs.getD (perm.getD i 0) []) (perm.getD i 0) hns
      slotsToModifyPerAccount st r
  simp only [p2Account, hrun] at h
  by_cases hk : p.kCommit = 0
  · rw [if_pos hk] at h
    exact Res.noConfusion h
  · rw [if_neg hk] at h
    cases hbnd : commitBoundary mM p.kCommit i with
    | false =>
      simp only [hbnd, Bool.false_eq_true, if_false, Res.ok.injEq, Prod.mk.injEq] at h
      obtain ⟨hst, -⟩ := h
      subst hst
      exact ⟨fun hb => absurd hb (by simp), fun _ => hc, ⟨L, htr, hlen⟩⟩
    | true =>
      simp only [hbnd, if_true] at h
      cases hsc : store.stateCommit (i / p.kCommit + 1000000) st2.statedb with
      | error e =>
        rw [hsc] at h
        exact Res.noConfusion h
      | ok root =>
        simp only [hsc] at h
        cases htc : store.trieCommit root with
        | error e =>
          rw [htc] at h
          exact Res.noConfusion h
        | ok u =>
          simp only [htc, Res.ok.injEq, Prod.mk.injEq] at h
          obtain ⟨hst, -⟩ := h
          refine ⟨fun _ => ⟨root, ?_⟩, fun hb => absurd hb (by simp), ?_⟩
          · rw [← hst]
            exact congrArg
              (· ++ [⟨Phase.modification, i + 1, i / p.kCommit + 1000000, root⟩]) hc
          · refine ⟨L, ?_, hlen⟩
            rw [← hst]
            exact htr

theorem p2LoopFrom_facts (v : Variant) (p : Params) (store : Store) (mM : Nat)
    (perm : List Nat) :
    ∀ (fuel i : Nat) (st : RunState) (r : Rng),
    ∃ L C,
      (p2LoopFrom v p store mM perm i st r fuel).state.reportEmitted = st.reportEmitted ∧
      (p2LoopFrom v p store mM perm i st r fuel).state.totalSlotsCreated =
        st.totalSlotsCreated ∧
      (p2LoopFrom v p store mM perm i st r fuel).state.addrs = st.addrs ∧
      (p2LoopFrom v p store mM perm i st r fuel).state.trace = st.trace ++ L ∧
      (∀ x ∈ L, ∃ q, i ≤ q ∧ q < i + fuel ∧ p2ItemFor v p st.addrs (perm.getD q 0) x) ∧
      (p2LoopFrom v p store mM perm i st r fuel).state.commits = st.commits ++ C ∧
      (∀ e ∈ C, ∃ q, i ≤ q ∧ q < i + fuel ∧ p2EventFor p mM q e) ∧
      (st.currentRoot = lastRoot st.commits →
        (p2LoopFrom v p store mM perm i st r fuel).state.currentRoot =
          lastRoot ((p2LoopFrom v p store mM perm i st r fuel).state.commits)) := by
  intro fuel
  induction fuel with
  | zero =>
    intro i st r
    refine ⟨[], [], ?_⟩
    simp only [p2LoopFrom, Res.state]
    exact ⟨by simp, by simp, by simp, by simp, by simp, by simp, by simp, by simp⟩
  | succ f ih =>
    intro i st r
    obtain ⟨L1, C1, f1, f2, f3, f4, f5, f6, f7, f8⟩ := p2Account_facts v p store mM perm i st r
    cases hacc : p2Account v p store mM perm i st r with
    | ok a =>
      obtain ⟨st1, r1⟩ := a
      rw [hacc] at f1 f2 f3 f4 f6 f8
      simp only [Res.state] at f1 f2 f3 f4 f6 f8
      obtain ⟨L2, C2, g1, g2, g3, g4, g5, g6, g7, g8⟩ := ih (i + 1) st1 r1
      have hloop : p2LoopFrom v p store mM perm i st r (f + 1) =
          p2LoopFrom v p store mM perm (i + 1) st1 r1 f := by
        simp only [p2LoopFrom, hacc]
      refine ⟨L1 ++ L2, C1 ++ C2, ?_⟩
      rw [hloop]
      refine ⟨by rw [g1, f1], by rw [g2, f2], by rw [g3, f3], ?_, ?_, ?_, ?_, ?_⟩
      · rw [g4, f4, List.append_assoc]
      · intro x hx
        rcases List.mem_append.mp hx with hx | hx
        · exact ⟨i, Nat.le_refl i, by omega, f5 x hx⟩
        · obtain ⟨q, h1, h2, h3⟩ := g5 x hx
          rw [f3] at h3
          exact ⟨q, by omega, by omega, h3⟩
      · rw [g6, f6, List.append_assoc]
      · intro e he
        rcases List.mem_append.mp he with he | he
        · exact ⟨i, Nat.le_refl i, by omega, f7 e he⟩
        · obtain ⟨q, h1, h2, h3⟩ := g7 e he
          exact ⟨q, by omega, by omega, h3⟩
      · intro h
        exact g8 (f8 h)
    | crashed s =>
      rw [hacc] at f1 f2 f3 f4 f6 f8
      simp only [Res.state] at f1 f2 f3 f4 f6 f8
      have hloop : p2LoopFrom v p store mM perm i st r (f + 1) = .crashed s := by
        simp only [p2LoopFrom, hacc]
      refine ⟨L1, C1, ?_⟩
      rw [hloop]
      exact ⟨f1, f2, f3, f4, fun x hx => ⟨i, Nat.le_refl i, by omega, f5 x hx⟩, f6,
        fun e he => ⟨i, Nat.le_refl i, by omega, f7 e he⟩, f8⟩
    | failed e s =>
      rw [hacc] at f1 f2 f3 f4 f6 f8
      simp only [Res.state] at f1 f2 f3 f4 f6 f8
      have hloop : p2LoopFrom v p store mM perm i st r (f + 1) = .failed e s := by
        simp only [p2LoopFrom, hacc]
      refine ⟨L1, C1, ?_⟩
      rw [hloop]
      exact ⟨f1, f2, f3, f4, fun x hx => ⟨i, Nat.le_refl i, by omega, f5 x hx⟩, f6,
        fun e2 he => ⟨i, Nat.le_refl i, by omega, f7 e2 he⟩, f8⟩

theorem p2LoopFrom_ok (v : Variant) (p : Params) (store : Store) (mM : Nat)
    (perm : List Nat) (hns : p.nSlots ≠ 0) :
    ∀ (fuel i : Nat) (st : RunState) (r : Rng) (st1 : RunState) (r1 : Rng),
    p2LoopFrom v p store mM perm i st r fuel = .ok (st1, r1) →
    commitPairs st1.commits = commitPairs st.commits ++
      ((List.range' i fuel).filter (commitBoundary mM p.kCommit)).map
        (fun x => (x + 1, x / p.kCommit + 1000000)) ∧
    ∃ L, st1.trace = st.trace ++ L ∧ L.length = slotsToModifyPerAccount * fuel := by
  intro fuel
  induction fuel with
  | zero =>
    intro i st r st1 r1 h
    simp only [p2LoopFrom, Res.ok.injEq, Prod.mk.injEq] at h
    obtain ⟨hst, -⟩ := h
    subst hst
    exact ⟨by simp [List.range'], ⟨[], by simp⟩⟩
  | succ f ih =>
    intro i st r st1 r1 h
    cases hacc : p2Account v p store mM perm i st r with
    | ok a =>
      obtain ⟨stA, rA⟩ := a
      have hloop : p2LoopFrom v p store mM perm (i + 1) stA rA f = .ok (st1, r1) := by
        rw [← h]
        simp only [p2LoopFrom, hacc]
      obtain ⟨hpairs, hL2⟩ := ih (i + 1) stA rA st1 r1 hloop
      obtain ⟨hcB, hcN, hLA⟩ := p2Account_ok v p store mM perm i st r stA rA hns hacc
      constructor
      · rw [hpairs, List.range'_succ, List.filter_cons]
        cases hbnd : commitBoundary mM p.kCommit i with
        | true =>
          obtain ⟨root, hcomm⟩ := hcB hbnd
          rw [hcomm]
          simp [commitPairs]
        | false =>
          rw [hcN hbnd]
          simp
      · obtain ⟨LA, hLAtr, hLAlen⟩ := hLA
        obtain ⟨L2, hL2tr, hL2len⟩ := hL2
        refine ⟨LA ++ L2, ?_, ?_⟩
        · rw [hL2tr, hLAtr, List.append_assoc]
        · rw [List.length_append, hLAlen, hL2len]
          ring
    | crashed s =>
      rw [p2LoopFrom, hacc] at h
      exact Res.noConfusion h
    | failed e s =>
      rw [p2LoopFrom, hacc] at h
      exact Res.noConfusion h

/-! Orchestrator-level consequences. -/

theorem p2Account_crashed_zero (v : Variant) (p : Params) (store : Store) (mM : Nat)
    (perm : List Nat) (i : Nat) (st : RunState) (r : Rng) (h : p.nSlots = 0) :
    p2Account v p store mM perm i st r =
      .crashed { st with totalSlotsModified := st.totalSlotsModified + 1 } := by
  have hcrash : p2SlotsFrom v p (st.addrs.getD (perm.getD i 0) []) (perm.getD i 0) st r
      slotsToModifyPerAccount =
        .crashed { st with totalSlotsModified := st.totalSlotsModified + 1 } := by
    rw [show slotsToModifyPerAccount = 499 + 1 from rfl]
    exact p2SlotsFrom_crash v p _ _ st r 499 h
  simp only [p2Account, hcrash]

theorem phase1_facts (v : Variant) (p : Params) (store : Store) (st : RunState) (r : Rng) :
    ∃ L C,
      (phase1 v p store st r).state.reportEmitted = st.reportEmitted ∧
      (phase1 v p store st r).state.totalSlotsModified = st.totalSlotsModified ∧
      (∃ A, (phase1 v p store st r).state.addrs = st.addrs ++ A) ∧
      (phase1 v p store st r).state.trace = st.trace ++ L ∧
      (∀ x ∈ L, ∃ ix, ix < p.nAccounts ∧ p1ItemFor v ix x) ∧
      (phase1 v p store st r).state.commits = st.commits ++ C ∧
      (∀ e ∈ C, ∃ ix, ix < p.nAccounts ∧ p1EventFor p ix e) ∧
      (st.currentRoot = lastRoot st.commits →
        (phase1 v p store st r).state.currentRoot =
          lastRoot ((phase1 v p store st r).state.commits)) := by
  obtain ⟨L, C, f1, f2, f3, f4, f5, f6, f7, f8⟩ := p1LoopFrom_facts v p store p.nAccounts 0 st r
  refine ⟨L, C, f1, f2, f3, f4, ?_, f6, ?_, f8⟩
  · intro x hx
    obtain ⟨ix, -, h2, h3⟩ := f5 x hx
    exact ⟨ix, by omega, h3⟩
  · intro e he
    obtain ⟨ix, -, h2, h3⟩ := f7 e he
    exact ⟨ix, by omega, h3⟩

theorem phase1_ok (v : Variant) (p : Params) (store : Store) (st : RunState) (r : Rng)
    (st1 : RunState) (r1 : Rng) (h : phase1 v p store st r = .ok (st1, r1)) :
    commitPairs st1.commits = commitPairs st.commits ++
      ((List.range p.nAccounts).filter (commitBoundary p.nAccounts p.kCommit)).map
        (fun x => (x + 1, x / p.kCommit)) ∧
    st1.addrs = st.addrs ++ (List.range p.nAccounts).map mkAddress := by
  have := p1LoopFrom_ok v p store p.nAccounts 0 st r st1 r1 h
  rwa [← List.range_eq_range'] at this

theorem phase2_facts (v : Variant) (p : Params) (store : Store) (mM : Nat)
    (perm : List Nat) (st : RunState) (r : Rng) :
    ∃ L C,
      (phase2 v p store mM perm st r).state.reportEmitted = st.reportEmitted ∧
      (phase2 v p store mM perm st r).state.totalSlotsCreated = st.totalSlotsCreated ∧
      (phase2 v p store mM perm st r).state.addrs = st.addrs ∧
      (phase2 v p store mM perm st r).state.trace = st.trace ++ L ∧
      (∀ x ∈ L, ∃ q, q < mM ∧ p2ItemFor v p st.addrs (perm.getD q 0) x) ∧
      (phase2 v p store mM perm st r).state.commits = st.commits ++ C ∧
      (∀ e ∈ C, ∃ q, q < mM ∧ p2EventFor p mM q e) ∧
      (st.currentRoot = lastRoot st.commits →
        (phase2 v p store mM perm st r).state.currentRoot =
          lastRoot ((phase2 v p store mM perm st r).state.commits)) := by
  obtain ⟨L, C, f1, f2, f3, f4, f5, f6, f7, f8⟩ := p2LoopFrom_facts v p store mM perm mM 0 st r
  refine ⟨L, C, f1, f2, f3, f4, ?_, f6, ?_, f8⟩
  · intro x hx
    obtain ⟨q, -, h2, h3⟩ := f5 x hx
    exact ⟨q, by omega, h3⟩
  · intro e he
    obtain ⟨q, -, h2, h3⟩ := f7 e he
    exact ⟨q, by omega, h3⟩

theorem phase2_ok (v : Variant) (p : Params) (store : Store) (mM : Nat)
    (perm : List Nat) (st : RunState) (r : Rng) (st1 : RunState) (r1 : Rng)
    (hns : p.nSlots ≠ 0) (h : phase2 v p store mM perm st r = .ok (st1, r1)) :
    commitPairs st1.commits = commitPairs st.commits ++
      ((List.range mM).filter (commitBoundary mM p.kCommit)).map
        (fun x => (x + 1, x / p.kCommit + 1000000)) ∧
    ∃ L, st1.trace = st.trace ++ L ∧ L.length = slotsToModifyPerAccount * mM := by
  have := p2LoopFrom_ok v p store mM perm hns mM 0 st r st1 r1 h
  rwa [← List.range_eq_range'] at this

theorem filterMap_phase_none (ph : Phase) (L : List (Phase × Mutation))
    (h : ∀ x ∈ L, ¬ x.1 = ph) :
    L.filterMap (fun x => if x.1 = ph then some x.2 else none) = [] := by
  induction L with
  | nil => rfl
  | cons a L ih =>
    have ha : ¬ a.1 = ph := h a (List.mem_cons_self a L)
    simp only [List.filterMap_cons, if_neg ha]
    exact ih fun x hx => h x (List.mem_cons_of_mem a hx)

theorem filterMap_phase_all (ph : Phase) (L : List (Phase × Mutation))
    (h : ∀ x ∈ L, x.1 = ph) :
    (L.filterMap (fun x => if x.1 = ph then some x.2 else none)).length = L.length := by
  induction L with
  | nil => rfl
  | cons a L ih =>
    have ha : a.1 = ph := h a (List.mem_cons_self a L)
    simp only [List.filterMap_cons, if_pos ha, List.length_cons]
    rw [ih fun x hx => h x (List.mem_cons_of_mem a hx)]

theorem benchRun_facts (v : Variant) (p : Params) (store : Store) (r1 rM : Rng) :
    ∃ pl r2, rM.perm p.nAccounts = some (pl, r2) ∧
      pl.length = p.nAccounts ∧ pl.Perm (List.range p.nAccounts) ∧
      (benchRun v p store r1 rM).final.currentRoot =
        lastRoot (benchRun v p store r1 rM).final.commits ∧
      ((benchRun v p store r1 rM).final.reportEmitted = true ↔
        (benchRun v p store r1 rM).outcome = .ok) ∧
      (∀ x ∈ (benchRun v p store r1 rM).final.trace,
        (x.1 = Phase.creation → ∃ ix, ix < p.nAccounts ∧ p1ItemFor v ix x) ∧
        (x.1 = Phase.modification → ∃ q, q < min p.mModify p.nAccounts ∧
          p2ItemFor v p (benchRun v p store r1 rM).final.addrs (pl.getD q 0) x)) ∧
      (∀ e ∈ (benchRun v p store r1 rM).final.commits,
        (e.phase = Phase.creation → ∃ ix, ix < p.nAccounts ∧ p1EventFor p ix e) ∧
        (e.phase = Phase.modification → ∃ q, q < min p.mModify p.nAccounts ∧
          p2EventFor p (min p.mModify p.nAccounts) q e)) ∧
      ((benchRun v p store r1 rM).outcome = .ok →
        (benchRun v p store r1 rM).final.addrs = (List.range p.nAccounts).map mkAddress ∧
        (modTrace (benchRun v p store r1 rM).final).length =
          slotsToModifyPerAccount * min p.mModify p.nAccounts) := by
  obtain ⟨pl, r2, hperm, hlen, hpermR⟩ := perm_spec rM p.nAccounts
  obtain ⟨L1, C1, a1, a2, a3, a4, a5, a6, a7, a8⟩ := phase1_facts v p store initState r1
  have hinit : initState.currentRoot = lastRoot initState.commits := rfl
  refine ⟨pl, r2, hperm, hlen, hpermR, ?_⟩
  cases hp1 : phase1 v p store initState r1 with
  | crashed s =>
    have hbr : benchRun v p store r1 rM = ⟨.crashed .creation, s⟩ := by
      simp only [benchRun, hp1]
    rw [hp1] at a1 a4 a6 a8
    simp only [Res.state] at a1 a4 a6 a8
    have ha4 : s.trace = L1 := by rw [a4]; rfl
    have ha6 : s.commits = C1 := by rw [a6]; rfl
    rw [hbr]
    refine ⟨a8 hinit, by simp [a1, initState], ?_, ?_, by simp⟩
    · intro x hx
      rw [show (RunResult.mk (Outcome.crashed Phase.creation) s).final = s from rfl,
        ha4] at hx
      refine ⟨fun _ => a5 x hx, fun hmod => ?_⟩
      obtain ⟨ix, -, hitem⟩ := a5 x hx
      exact absurd (hitem.1.symm.trans hmod) (by simp)
    · intro e he
      rw [show (RunResult.mk (Outcome.crashed Phase.creation) s).final = s from rfl,
        ha6] at he
      refine ⟨fun _ => a7 e he, fun hmod => ?_⟩
      obtain ⟨ix, -, hev⟩ := a7 e he
      exact absurd (hev.1.symm.trans hmod) (by simp)
  | failed msg s =>
    have hbr : benchRun v p store r1 rM = ⟨.failed .creation msg, s⟩ := by
      simp only [benchRun, hp1]
    rw [hp1] at a1 a4 a6 a8
    simp only [Res.state] at a1 a4 a6 a8
    have ha4 : s.trace = L1 := by rw [a4]; rfl
    have ha6 : s.commits = C1 := by rw [a6]; rfl
    rw [hbr]
    refine ⟨a8 hinit, by simp [a1, initState], ?_, ?_, by simp⟩
    · intro x hx
      rw [show (RunResult.mk (Outcome.failed Phase.creation msg) s).final = s from rfl,
        ha4] at hx
      refine ⟨fun _ => a5 x hx, fun hmod => ?_⟩
      obtain ⟨ix, -, hitem⟩ := a5 x hx
      exact absurd (hitem.1.symm.trans hmod) (by simp)
    · intro e he
      rw [show (RunResult.mk (Outcome.failed Phase.creation msg) s).final = s from rfl,
        ha6] at he
      refine ⟨fun _ => a7 e he, fun hmod => ?_⟩
      obtain ⟨ix, -, hev⟩ := a7 e he
      exact absurd (hev.1.symm.trans hmod) (by simp)
  | ok a =>
    obtain ⟨st1, rr⟩ := a
    rw [hp1] at a1 a4 a6 a8
    simp only [Res.state] at a1 a4 a6 a8
    have ha4 : st1.trace = L1 := by rw [a4]; rfl
    have ha6 : st1.commits = C1 := by rw [a6]; rfl
    have hroot1 : st1.currentRoot = lastRoot st1.commits := a8 hinit
    have ha1 : st1.reportEmitted = false := a1
    obtain ⟨L2, C2, b1, b2, b3, b4, b5, b6, b7, b8⟩ :=
      phase2_facts v p store (min p.mModify p.nAccounts) pl st1 r2
    cases hp2 : phase2 v p store (min p.mModify p.nAccounts) pl st1 r2 with
    | crashed s2 =>
      have hbr : benchRun v p store r1 rM = ⟨.crashed .modification, s2⟩ := by
        simp only [benchRun, hperm, hp1, hp2]
      rw [hp2] at b1 b3 b4 b6 b8
      simp only [Res.state] at b1 b3 b4 b6 b8
      rw [hbr]
      refine ⟨b8 hroot1, by simp [b1, ha1], ?_, ?_, by simp⟩
      · intro x hx
        rw [show (RunResult.mk (Outcome.crashed Phase.modification) s2).final = s2 from rfl,
          b4, ha4] at hx
        rcases List.mem_append.mp hx with hx | hx
        · refine ⟨fun _ => a5 x hx, fun hmod => ?_⟩
          obtain ⟨ix, -, hitem⟩ := a5 x hx
          exact absurd (hitem.1.symm.trans hmod) (by simp)
        · obtain ⟨q, hq, hitem⟩ := b5 x hx
          refine ⟨fun hcr => ?_, fun _ => ⟨q, hq, ?_⟩⟩
          · exact absurd (hitem.1.symm.trans hcr) (by simp)
          · rw [show (RunResult.mk (Outcome.crashed Phase.modification) s2).final = s2
              from rfl, b3]
            exact hitem
      · intro e he
        rw [show (RunResult.mk (Outcome.crashed Phase.modification) s2).final = s2
          from rfl, b6, ha6] at he
        rcases List.mem_append.mp he with he | he
        · refine ⟨fun _ => a7 e he, fun hmod => ?_⟩
          obtain ⟨ix, -, hev⟩ := a7 e he
          exact absurd (hev.1.symm.trans hmod) (by simp)
        · obtain ⟨q, hq, hev⟩ := b7 e he
          refine ⟨fun hcr => absurd (hev.1.symm.trans hcr) (by simp), fun _ => ⟨q, hq, hev⟩⟩
    | failed msg s2 =>
      have hbr : benchRun v p store r1 rM = ⟨.failed .modification msg, s2⟩ := by
        simp only [benchRun, hperm, hp1, hp2]
      rw [hp2] at b1 b3 b4 b6 b8
      simp only [Res.state] at b1 b3 b4 b6 b8
      rw [hbr]
      refine ⟨b8 hroot1, by simp [b1, ha1], ?_, ?_, by simp⟩
      · intro x hx
        rw [show (RunResult.mk (Outcome.failed Phase.modification msg) s2).final = s2
          from rfl, b4, ha4] at hx
        rcases List.mem_append.mp hx with hx | hx
        · refine ⟨fun _ => a5 x hx, fun hmod => ?_⟩
          obtain ⟨ix, -, hitem⟩ := a5 x hx
          exact absurd (hitem.1.symm.trans hmod) (by simp)
        · obtain ⟨q, hq, hitem⟩ := b5 x hx
          refine ⟨fun hcr => ?_, fun _ => ⟨q, hq, ?_⟩⟩
          · exact absurd (hitem.1.symm.trans hcr) (by simp)
          · rw [show (RunResult.mk (Outcome.failed Phase.modification msg) s2).final = s2
              from rfl, b3]
            exact hitem
      · intro e he
        rw [show (RunResult.mk (Outcome.failed Phase.modification msg) s2).final = s2
          from rfl, b6, ha6] at he
        rcases List.mem_append.mp he with he | he
        · refine ⟨fun _ => a7 e he, fun hmod => ?_⟩
          obtain ⟨ix, -, hev⟩ := a7 e he
          exact absurd (hev.1.symm.trans hmod) (by simp)
        · obtain ⟨q, hq, hev⟩ := b7 e he
          refine ⟨fun hcr => absurd (hev.1.symm.trans hcr) (by simp), fun _ => ⟨q, hq, hev⟩⟩
    | ok a2 =>
      obtain ⟨st2, rr2⟩ := a2
      have hbr : benchRun v p store r1 rM = ⟨.ok, { st2 with reportEmitted := true }⟩ := by
        simp only [benchRun, hperm, hp1, hp2]
      rw [hp2] at b1 b3 b4 b6 b8
      simp only [Res.state] at b1 b3 b4 b6 b8
      have hfin : (RunResult.mk Outcome.ok { st2 with reportEmitted := true }).final =
          { st2 with reportEmitted := true } := rfl
      rw [hbr]
      refine ⟨b8 hroot1, by simp, ?_, ?_, ?_⟩
      · intro x hx
        rw [hfin, show ({ st2 with reportEmitted := true } : RunState).trace = st2.trace
          from rfl, b4, ha4] at hx
        rcases List.mem_append.mp hx with hx | hx
        · refine ⟨fun _ => a5 x hx, fun hmod => ?_⟩
          obtain ⟨ix, -, hitem⟩ := a5 x hx
          exact absurd (hitem.1.symm.trans hmod) (by simp)
        · obtain ⟨q, hq, hitem⟩ := b5 x hx
          refine ⟨fun hcr => ?_, fun _ => ⟨q, hq, ?_⟩⟩
          · exact absurd (hitem.1.symm.trans hcr) (by simp)
          · rw [hfin, show ({ st2 with reportEmitted := true } : RunState).addrs = st2.addrs
              from rfl, b3]
            exact hitem
      · intro e he
        rw [hfin, show ({ st2 with reportEmitted := true } : RunState).commits = st2.commits
          from rfl, b6, ha6] at he
        rcases List.mem_append.mp he with he | he
        · refine ⟨fun _ => a7 e he, fun hmod => ?_⟩
          obtain ⟨ix, -, hev⟩ := a7 e he
          exact absurd (hev.1.symm.trans hmod) (by simp)
        · obtain ⟨q, hq, hev⟩ := b7 e he
          refine ⟨fun hcr => absurd (hev.1.symm.trans hcr) (by simp), fun _ => ⟨q, hq, hev⟩⟩
      · intro _
        obtain ⟨-, haddr⟩ := phase1_ok v p store initState r1 st1 rr hp1
        have haddr1 : st1.addrs = (List.range p.nAccounts).map mkAddress := by
          rw [haddr]; rfl
        constructor
        · rw [hfin, show ({ st2 with reportEmitted := true } : RunState).addrs = st2.addrs
            from rfl, b3, haddr1]
        · have hL1cr : ∀ x ∈ L1, ¬ x.1 = Phase.modification := by
            intro x hx
            obtain ⟨ix, -, hitem⟩ := a5 x hx
            rw [hitem.1]
            simp
          have hL2mod : ∀ x ∈ L2, x.1 = Phase.modification := by
            intro x hx
            obtain ⟨q, -, hitem⟩ := b5 x hx
            exact hitem.1
          have htr2 : ({ st2 with reportEmitted := true } : RunState).trace = L1 ++ L2 := by
            show st2.trace = L1 ++ L2
            rw [b4, ha4]
          by_cases hns : p.nSlots = 0
          · cases hmm : min p.mModify p.nAccounts with
            | zero =>
              have hzero : phase2 v p store (min p.mModify p.nAccounts) pl st1 r2 =
                  .ok (st1, r2) := by
                rw [hmm]
                rfl
              rw [hzero] at hp2
              simp only [Res.ok.injEq, Prod.mk.injEq] at hp2
              obtain ⟨hst, -⟩ := hp2
              have hL2nil : L2 = [] := by
                have hthis := b4
                rw [hst] at hthis
                have h0 : st2.trace ++ ([] : List (Phase × Mutation)) = st2.trace ++ L2 := by
                  rw [List.append_nil]
                  exact hthis
                exact (List.append_cancel_left h0).symm
              rw [hfin]
              unfold modTrace
              rw [show ({ st2 with reportEmitted := true } : RunState).trace = st2.trace
                from rfl, b4, ha4, hL2nil, List.append_nil]
              rw [filterMap_phase_none Phase.modification L1 hL1cr]
              simp
            | succ f =>
              have hcrash : phase2 v p store (min p.mModify p.nAccounts) pl st1 r2 =
                  .crashed { st1 with totalSlotsModified := st1.totalSlotsModified + 1 } := by
                rw [phase2, hmm]
                simp only [p2LoopFrom,
                  p2Account_crashed_zero v p store (f + 1) pl 0 st1 r2 hns]
              rw [hcrash] at hp2
              exact Res.noConfusion hp2
          · obtain ⟨-, L2', hL2tr, hL2len⟩ :=
              phase2_ok v p store (min p.mModify p.nAccounts) pl st1 r2 st2 rr2 hns hp2
            have hL2eq : L2 = L2' := List.append_cancel_left (b4.symm.trans hL2tr)
            rw [hfin]
            unfold modTrace
            rw [show ({ st2 with reportEmitted := true } : RunState).trace = st2.trace
              from rfl, b4, ha4, List.filterMap_append]
            rw [filterMap_phase_none Phase.modification L1 hL1cr]
            simp only [List.nil_append, List.length_append, List.length_nil]
            rw [filterMap_phase_all Phase.modification L2 hL2mod, hL2eq, hL2len]

theorem benchRun_crash_zero (v : Variant) (p : Params) (store : Store) (r1 rM : Rng)
    (h0 : p.nSlots = 0) (h1 : 1 ≤ p.nAccounts) :
    benchRun v p store r1 rM = ⟨.crashed .creation, p1Pre 0 initState⟩ := by
  obtain ⟨f, hf⟩ : ∃ f, p.nAccounts = f + 1 := ⟨p.nAccounts - 1, by omega⟩
  have hacc := p1Account_crashed_zero v p store 0 initState r1 h0
  have hph1 : phase1 v p store initState r1 = .crashed (p1Pre 0 initState) := by
    unfold phase1
    rw [hf]
    simp only [p1LoopFrom, hacc]
  simp only [benchRun, hph1]

theorem phase2_crash_zero (v : Variant) (p : Params) (store : Store) (mM : Nat)
    (perm : List Nat) (st : RunState) (r : Rng) (h0 : p.nSlots = 0) (h1 : 1 ≤ mM) :
    phase2 v p store mM perm st r =
      .crashed { st with totalSlotsModified := st.totalSlotsModified + 1 } := by
  obtain ⟨f, hf⟩ : ∃ f, mM = f + 1 := ⟨mM - 1, by omega⟩
  subst hf
  have hacc := p2Account_crashed_zero v p store (f + 1) perm 0 st r h0
  unfold phase2
  simp only [p2LoopFrom, hacc]

theorem benchRun_zero_accounts (v : Variant) (store : Store) (r1 rM : Rng)
    (slots m k : Nat) :
    benchRun v ⟨0, slots, m, k⟩ store r1 rM =
      ⟨.ok, { initState with reportEmitted := true }⟩ := by
  have hph1 : phase1 v ⟨0, slots, m, k⟩ store initState r1 = .ok (initState, r1) := rfl
  have hperm : rM.perm 0 = some ([], rM) := rfl
  have hph2 : phase2 v ⟨0, slots, m, k⟩ store (min m 0) [] initState rM =
      .ok (initState, rM) := by
    unfold phase2
    rw [Nat.min_zero]
    rfl
  simp only [benchRun, hph1, hperm, hph2]

/-- The creation-phase projections of the final run state are exactly those of the
phase-1 result: phase 2 appends only modification-tagged items and events. -/
theorem benchRun_creation_of_phase1 (v : Variant) (p : Params) (store : Store)
    (r1 rM : Rng) :
    creationTrace (benchRun v p store r1 rM).final =
      creationTrace (phase1 v p store initState r1).state ∧
    (benchRun v p store r1 rM).final.commits.filter
        (fun e => e.phase == Phase.creation) =
      (phase1 v p store initState r1).state.commits.filter
        (fun e => e.phase == Phase.creation) := by
  cases hp1 : phase1 v p store initState r1 with
  | crashed s =>
    have hbr : benchRun v p store r1 rM = ⟨.crashed .creation, s⟩ := by
      simp only [benchRun, hp1]
    rw [hbr]
    exact ⟨rfl, rfl⟩
  | failed e s =>
    have hbr : benchRun v p store r1 rM = ⟨.failed .creation e, s⟩ := by
      simp only [benchRun, hp1]
    rw [hbr]
    exact ⟨rfl, rfl⟩
  | ok a =>
    obtain ⟨st1, rr⟩ := a
    obtain ⟨pl, r2p, hperm, -, -⟩ := perm_spec rM p.nAccounts
    obtain ⟨L2, C2, b1, b2, b3, b4, b5, b6, b7, b8⟩ :=
      phase2_facts v p store (min p.mModify p.nAccounts) pl st1 r2p
    have hmods : ∀ x ∈ L2, ¬ x.1 = Phase.creation := by
      intro x hx
      obtain ⟨q, -, hitem⟩ := b5 x hx
      rw [hitem.1]
      simp
    have hmodc : C2.filter (fun e => e.phase == Phase.creation) = [] := by
      rw [List.filter_eq_nil_iff]
      intro e he
      obtain ⟨q, -, hev⟩ := b7 e he
      simp [hev.1]
    cases hp2 : phase2 v p store (min p.mModify p.nAccounts) pl st1 r2p with
    | crashed s2 =>
      have hbr : benchRun v p store r1 rM = ⟨.crashed .modification, s2⟩ := by
        simp only [benchRun, hperm, hp1, hp2]
      rw [hp2] at b4 b6
      simp only [Res.state] at b4 b6
      rw [hbr]
      constructor
      · show creationTrace s2 = creationTrace st1
        unfold creationTrace
        rw [b4, List.filterMap_append,
          filterMap_phase_none Phase.creation L2 hmods, List.append_nil]
      · show s2.commits.filter _ = st1.commits.filter _
        rw [b6, List.filter_append, hmodc, List.append_nil]
    | failed e2 s2 =>
      have hbr : benchRun v p store r1 rM = ⟨.failed .modification e2, s2⟩ := by
        simp only [benchRun, hperm, hp1, hp2]
      rw [hp2] at b4 b6
      simp only [Res.state] at b4 b6
      rw [hbr]
      constructor
      · show creationTrace s2 = creationTrace st1
        unfold creationTrace
        rw [b4, List.filterMap_append,
          filterMap_phase_none Phase.creation L2 hmods, List.append_nil]
      · show s2.commits.filter _ = st1.commits.filter _
        rw [b6, List.filter_append, hmodc, List.append_nil]
    | ok a2 =>
      obtain ⟨st2, rr2⟩ := a2
      have hbr : benchRun v p store r1 rM = ⟨.ok, { st2 with reportEmitted := true }⟩ := by
        simp only [benchRun, hperm, hp1, hp2]
      rw [hp2] at b4 b6
      simp only [Res.state] at b4 b6
      rw [hbr]
      constructor
      · show creationTrace { st2 with reportEmitted := true } = creationTrace st1
        unfold creationTrace
        rw [show ({ st2 with reportEmitted := true } : RunState).trace = st2.trace
          from rfl, b4, List.filterMap_append,
          filterMap_phase_none Phase.creation L2 hmods, List.append_nil]
      · show ({ st2 with reportEmitted := true } : RunState).commits.filter _ =
          st1.commits.filter _
        rw [show ({ st2 with reportEmitted := true } : RunState).commits = st2.commits
          from rfl, b6, List.filter_append, hmodc, List.append_nil]

/-- A store that fails the third state-level commit (revision 2) and succeeds
otherwise, for the fatal-abort scenario. -/
def failThirdStore : Store :=
  { stateCommit := fun rev _ => if rev = 2 then .error "boom" else .ok (rev + 1),
    trieCommit := fun _ => .ok () }

/-! The claims. -/

/-- C1 (amended): the phase-1 revision numbers floor(i/k) and the phase-2 revision
numbers floor(i/k) + 1000000 never overlap provided nAccounts ≤ 1000000 * kCommit
(with k ≥ 1); the unrestricted statement over all n, k fails.  Run-level form: in
any run, a creation commit and a modification commit never share a revision. -/
theorem revisionOffset_amended :
    (∀ n k m : Nat, 1 ≤ k → n ≤ 1000000 * k →
      ∀ x ∈ p1RevSet n k, x ∉ p2RevSet m k) ∧
    (∀ (v : Variant) (p : Params) (store : Store) (r1 rM : Rng),
      1 ≤ p.kCommit → p.nAccounts ≤ 1000000 * p.kCommit →
      ∀ e1 ∈ (benchRun v p store r1 rM).final.commits,
        ∀ e2 ∈ (benchRun v p store r1 rM).final.commits,
          e1.phase = Phase.creation → e2.phase = Phase.modification →
            e1.rev ≠ e2.rev) := by
  have key : ∀ k i n : Nat, 1 ≤ k → n ≤ 1000000 * k → i < n → i / k < 1000000 := by
    intro k i n hk hn hi
    exact (Nat.div_lt_iff_lt_mul (by omega)).mpr (by omega)
  constructor
  · rintro n k m hk hn x ⟨i, hi, hb, rfl⟩ ⟨j, hj, hb2, hx2⟩
    have h1 : i / k < 1000000 := key k i n hk hn hi
    rw [hx2] at h1
    exact absurd h1 (Nat.not_lt.mpr (Nat.le_add_left _ _))
  · intro v p store r1 rM hk hn e1 he1 e2 he2 hph1 hph2
    obtain ⟨pl, r2, -, -, -, -, -, -, hcom, -⟩ := benchRun_facts v p store r1 rM
    obtain ⟨hc1, -⟩ := hcom e1 he1
    obtain ⟨-, hc2⟩ := hcom e2 he2
    obtain ⟨ix, hix, hev1⟩ := hc1 hph1
    obtain ⟨q, hq, hev2⟩ := hc2 hph2
    have h1 : e1.rev = ix / p.kCommit := hev1.2.2.1
    have h2 : e2.rev = q / p.kCommit + 1000000 := hev2.2.2.1
    have h3 : ix / p.kCommit < 1000000 := key p.kCommit ix p.nAccounts hk hn hix
    intro heq
    rw [h1, h2] at heq
    have hle : 1000000 ≤ ix / p.kCommit := by
      rw [heq]
      exact Nat.le_add_left _ _
    exact absurd h3 (Nat.not_lt.mpr hle)

/-- C1 counterexample: with n = 1000001, k = 1, m = 1 the revision number 1000000
lies in both the phase-1 and the phase-2 revision sets, so the claim quantified
over all n, k (including n > 1000000 * k) is false. -/
theorem revisionOffset_cex :
    1000000 ∈ p1RevSet 1000001 1 ∧ 1000000 ∈ p2RevSet 1 1 := by
  constructor
  · exact ⟨1000000, by omega, by decide, by decide⟩
  · exact ⟨0, by omega, by decide, by decide⟩

set_option maxRecDepth 2000000 in
/-- C1 witness: the amended theorem applied at n = 237, k = 50, m = 10 (set level)
and at a concrete two-account run (run level). -/
theorem revisionOffset_w :
    (4 : Nat) ∉ p2RevSet 10 50 ∧
    (⟨Phase.creation, 1, 0, 1⟩ : CommitEvent) ∈
      (benchRun .pebble ⟨2, 1, 1, 1⟩ okStore zeroRng zeroRng).final.commits ∧
    (⟨Phase.modification, 1, 1000000, 1000001⟩ : CommitEvent) ∈
      (benchRun .pebble ⟨2, 1, 1, 1⟩ okStore zeroRng zeroRng).final.commits ∧
    (⟨Phase.creation, 1, 0, 1⟩ : CommitEvent).rev ≠
      (⟨Phase.modification, 1, 1000000, 1000001⟩ : CommitEvent).rev := by
  refine ⟨?_, by decide, by decide, ?_⟩
  · exact revisionOffset_amended.1 237 50 10 (by decide) (by decide) 4
      ⟨236, by decide, by decide, by decide⟩
  · exact revisionOffset_amended.2 .pebble ⟨2, 1, 1, 1⟩ okStore zeroRng zeroRng
      (by decide) (by decide) _ (by decide) _ (by decide) rfl rfl

/-- C2 (amended): the LevelDB variant derives phase-1 slot keys from the label
"account-<i>-slot-<j>", but the Pebble variant uses "acc-<i>-slot-<j>"; in every
run, each creation-phase storage write carries the variant's phase-1 key for some
account index below nAccounts. -/
theorem slotKeyLabel_amended :
    (∀ i j : Nat, p1SlotKey .leveldb i j =
      keccak256 ("account-" ++ toString i ++ "-slot-" ++ toString j)) ∧
    (∀ i j : Nat, p1SlotKey .pebble i j =
      keccak256 ("acc-" ++ toString i ++ "-slot-" ++ toString j)) ∧
    (∀ (v : Variant) (p : Params) (store : Store) (r1 rM : Rng) (a k : Digest) (w : Word),
      (Phase.creation, Mutation.setState a k w) ∈ (benchRun v p store r1 rM).final.trace →
      ∃ i jx, i < p.nAccounts ∧ a = mkAddress i ∧ k = p1SlotKey v i jx) := by
  refine ⟨fun i j => rfl, fun i j => rfl, ?_⟩
  intro v p store r1 rM a k w hmem
  obtain ⟨pl, r2, -, -, -, -, -, htr, -, -⟩ := benchRun_facts v p store r1 rM
  obtain ⟨hcr, -⟩ := htr _ hmem
  obtain ⟨ix, hix, hitem⟩ := hcr rfl
  obtain ⟨ha, jx, hk⟩ := hitem.2 a k w rfl
  exact ⟨ix, jx, hix, ha, hk⟩

/-- C2 counterexample: in the Pebble variant (src/cmd/mpt_bench/main.go) the key
emitted for account 0, slot 0 is the hash of "acc-0-slot-0", which differs from
the hash of "account-0-slot-0" stated by the claim. -/
theorem slotKeyLabel_cex :
    (Phase.creation, Mutation.setState (mkAddress 0) (keccak256 "acc-0-slot-0") 0) ∈
      (benchRun .pebble ⟨1, 1, 0, 1⟩ okStore oneRng zeroRng).final.trace ∧
    setStateKeys (creationTrace (benchRun .pebble ⟨1, 1, 0, 1⟩ okStore oneRng
      zeroRng).final) = [keccak256 "acc-0-slot-0"] ∧
    keccak256 "acc-0-slot-0" ≠ keccak256 "account-0-slot-0" := by
  refine ⟨by decide, by decide, by decide⟩

/-- C2 witness: the amended theorem applied to the concrete one-slot run. -/
theorem slotKeyLabel_w :
    (Phase.creation, Mutation.setState (mkAddress 0) (keccak256 "acc-0-slot-0") 0) ∈
      (benchRun .pebble ⟨1, 1, 0, 1⟩ okStore oneRng zeroRng).final.trace ∧
    (∃ i jx, i < 1 ∧ mkAddress 0 = mkAddress i ∧
      keccak256 "acc-0-slot-0" = p1SlotKey .pebble i jx) := by
  refine ⟨by decide, ?_⟩
  exact slotKeyLabel_amended.2.2 .pebble ⟨1, 1, 0, 1⟩ okStore oneRng zeroRng
    (mkAddress 0) (keccak256 "acc-0-slot-0") 0 (by decide)

/-- C3 (amended): with avgSlots = 0 and at least one account the run does not
proceed normally: it panics (Intn with argument 0) at the very first vSlots draw,
before any slot mutation; for avgSlots ≥ 1 the draw lies in [0, 2*avgSlots) and
phase 1 never panics (k ≥ 1). -/
theorem avgSlotsZero_amended :
    (∀ (v : Variant) (p : Params) (store : Store) (r1 rM : Rng),
      p.nSlots = 0 → 1 ≤ p.nAccounts →
      benchRun v p store r1 rM = ⟨.crashed .creation, p1Pre 0 initState⟩) ∧
    (∀ (r : Rng) (n vs : Nat) (r2 : Rng),
      r.intn (n * 2) = some (vs, r2) → vs < 2 * n) ∧
    (∀ (v : Variant) (p : Params) (store : Store) (r : Rng) (s : RunState),
      p.nSlots ≠ 0 → p.kCommit ≠ 0 → phase1 v p store initState r ≠ .crashed s) := by
  refine ⟨benchRun_crash_zero, ?_, ?_⟩
  · intro r n vs r2 h
    rw [Rng.intn] at h
    by_cases hn : n * 2 = 0
    · rw [if_pos hn] at h
      exact Option.noConfusion h
    · rw [if_neg hn] at h
      simp only [Option.some.injEq, Prod.mk.injEq] at h
      obtain ⟨hvs, -⟩ := h
      have := Nat.mod_lt (r.stream r.pos) (Nat.pos_of_ne_zero hn)
      omega
  · intro v p store r s hns hk
    exact p1LoopFrom_ne_crashed v p store hns hk p.nAccounts 0 initState r s

/-- C3 counterexample: with slots = 0 and one account the run does not proceed
normally; it panics during creation. -/
theorem avgSlotsZero_cex :
    (benchRun .pebble ⟨1, 0, 10, 50⟩ okStore zeroRng zeroRng).outcome =
      .crashed .creation ∧
    (benchRun .pebble ⟨1, 0, 10, 50⟩ okStore zeroRng zeroRng).outcome ≠ .ok := by
  exact ⟨by decide, by decide⟩

/-- C3 witness: the amended theorem applied at concrete inputs. -/
theorem avgSlotsZero_w :
    benchRun .pebble ⟨1, 0, 10, 50⟩ okStore zeroRng zeroRng =
      ⟨.crashed .creation, p1Pre 0 initState⟩ ∧
    (0 : Nat) < 2 * 3 ∧
    phase1 .pebble ⟨1, 1, 0, 1⟩ okStore initState zeroRng ≠ .crashed initState := by
  refine ⟨avgSlotsZero_amended.1 .pebble ⟨1, 0, 10, 50⟩ okStore zeroRng zeroRng rfl
      (by decide), ?_,
    avgSlotsZero_amended.2.2 .pebble ⟨1, 1, 0, 1⟩ okStore zeroRng initState
      (by decide) (by decide)⟩
  exact avgSlotsZero_amended.2.1 zeroRng 3 0 ⟨zeroRng.stream, 1⟩ rfl

/-- C4 (amended): the slot-key derivation is shared between the phases, and every
phase-2 storage write in a completed run targets an address of the phase-1 set
(the addrs array, which is exactly the addresses of indices 0..n-1); however a
phase-2 write may create a brand-new slot (see the counterexample), so the
overwrite-only part of the claim fails. -/
theorem phase2Targets_amended :
    (∀ (v : Variant) (i j : Nat), p2SlotKey v i j = p1SlotKey v i j) ∧
    (∀ (v : Variant) (p : Params) (store : Store) (r1 rM : Rng) (a k : Digest) (w : Word),
      (benchRun v p store r1 rM).outcome = .ok →
      (Phase.modification, Mutation.setState a k w) ∈
        (benchRun v p store r1 rM).final.trace →
      a ∈ (benchRun v p store r1 rM).final.addrs ∧
      (benchRun v p store r1 rM).final.addrs = (List.range p.nAccounts).map mkAddress) := by
  refine ⟨?_, ?_⟩
  · intro v i j
    cases v <;> rfl
  · intro v p store r1 rM a k w hok hmem
    obtain ⟨pl, r2, hperm, hplen, hpermR, -, -, htr, -, hokc⟩ :=
      benchRun_facts v p store r1 rM
    obtain ⟨haddrs, -⟩ := hokc hok
    obtain ⟨-, hmod⟩ := htr _ hmem
    obtain ⟨q, hq, hitem⟩ := hmod rfl
    obtain ⟨ha, -⟩ := hitem.2 a k w rfl
    have hqlt : q < pl.length := by rw [hplen]; omega
    have hidx : pl.getD q 0 < p.nAccounts := by
      rw [List.getD_eq_getElem pl 0 hqlt]
      exact List.mem_range.mp (hpermR.mem_iff.mp (List.getElem_mem hqlt))
    have hlen2 : (benchRun v p store r1 rM).final.addrs.length = p.nAccounts := by
      rw [haddrs, List.length_map, List.length_range]
    refine ⟨?_, haddrs⟩
    rw [ha, List.getD_eq_getElem _ [] (by rw [hlen2]; exact hidx)]
    exact List.getElem_mem _

set_option maxRecDepth 2000000 in
/-- C4 counterexample: in a completed run where account 0 received zero slots in
phase 1, every phase-2 write targets a slot key that phase 1 never wrote, so
phase-2 mutations create new slots instead of overwriting existing ones. -/
theorem phase2Targets_cex :
    (benchRun .pebble ⟨1, 1, 1, 1⟩ okStore zeroRng zeroRng).outcome = .ok ∧
    setStateKeys (modTrace (benchRun .pebble ⟨1, 1, 1, 1⟩ okStore zeroRng
      zeroRng).final) ≠ [] ∧
    (∀ k ∈ setStateKeys (modTrace (benchRun .pebble ⟨1, 1, 1, 1⟩ okStore zeroRng
        zeroRng).final),
      k ∉ setStateKeys (creationTrace (benchRun .pebble ⟨1, 1, 1, 1⟩ okStore zeroRng
        zeroRng).final)) := by
  refine ⟨by decide, by decide, by decide⟩

set_option maxRecDepth 2000000 in
/-- C4 witness: the amended theorem applied to a concrete completed run. -/
theorem phase2Targets_w :
    (benchRun .pebble ⟨1, 1, 1, 1⟩ okStore zeroRng zeroRng).outcome = .ok ∧
    (Phase.modification, Mutation.setState (mkAddress 0) (p2SlotKey .pebble 0 0) 0) ∈
      (benchRun .pebble ⟨1, 1, 1, 1⟩ okStore zeroRng zeroRng).final.trace ∧
    mkAddress 0 ∈ (benchRun .pebble ⟨1, 1, 1, 1⟩ okStore zeroRng zeroRng).final.addrs := by
  refine ⟨by decide, by decide, ?_⟩
  exact (phase2Targets_amended.2 .pebble ⟨1, 1, 1, 1⟩ okStore zeroRng zeroRng
    (mkAddress 0) (p2SlotKey .pebble 0 0) 0 (by decide) (by decide)).1

set_option maxRecDepth 2000000 in
/-- C5: in any completed phase 1 the commits happen exactly at the indices i with
(i+1) mod k = 0 or i+1 = n, with revision floor(i/k); concretely, with n = 237 and
k = 50 the commits happen after accounts 50, 100, 150, 200 and 237 with revisions
0..4 (five commits, the last batch short). -/
theorem batchBoundary_correct :
    (∀ (v : Variant) (p : Params) (store : Store) (r : Rng),
      (phase1 v p store initState r).isOk = true →
      commitPairs (phase1 v p store initState r).state.commits =
        ((List.range p.nAccounts).filter (commitBoundary p.nAccounts p.kCommit)).map
          (fun i => (i + 1, i / p.kCommit))) ∧
    ((phase1 .pebble ⟨237, 1, 0, 50⟩ okStore initState zeroRng).isOk = true ∧
      commitPairs (phase1 .pebble ⟨237, 1, 0, 50⟩ okStore initState zeroRng).state.commits =
        [(50, 0), (100, 1), (150, 2), (200, 3), (237, 4)]) := by
  constructor
  · intro v p store r hok
    cases hres : phase1 v p store initState r with
    | ok a =>
      obtain ⟨st1, r1⟩ := a
      obtain ⟨hpairs, -⟩ := phase1_ok v p store initState r st1 r1 hres
      simp only [Res.state]
      rw [hpairs]
      simp [commitPairs, initState]
    | crashed s =>
      rw [hres] at hok
      exact absurd hok (by simp [Res.isOk])
    | failed e s =>
      rw [hres] at hok
      exact absurd hok (by simp [Res.isOk])
  · exact ⟨by decide, by decide⟩

set_option maxRecDepth 2000000 in
/-- C5 witness: the boundary characterisation applied at n = 7, k = 3. -/
theorem batchBoundary_w :
    (phase1 .pebble ⟨7, 1, 0, 3⟩ okStore initState zeroRng).isOk = true ∧
    commitPairs (phase1 .pebble ⟨7, 1, 0, 3⟩ okStore initState zeroRng).state.commits =
      ((List.range 7).filter (commitBoundary 7 3)).map (fun i => (i + 1, i / 3)) := by
  refine ⟨by decide, ?_⟩
  exact batchBoundary_correct.1 .pebble ⟨7, 1, 0, 3⟩ okStore zeroRng (by decide)

/-- C6: in every run the head of the root chain equals the root of the last
successful commit (the empty root if none), and the final report is emitted
exactly when the run terminates normally — so a commit failure leaves the durable
head at the prior root and suppresses the report; concretely, a store failing the
third commit aborts after batch 2 with currentRoot equal to batch 2's root, the
two successful commits only, and no final report. -/
theorem commitFailureAborts :
    (∀ (v : Variant) (p : Params) (store : Store) (r1 rM : Rng),
      (benchRun v p store r1 rM).final.currentRoot =
        lastRoot (benchRun v p store r1 rM).final.commits ∧
      ((benchRun v p store r1 rM).final.reportEmitted = true ↔
        (benchRun v p store r1 rM).outcome = .ok)) ∧
    ((benchRun .pebble ⟨5, 1, 0, 1⟩ failThirdStore zeroRng zeroRng).outcome =
        .failed .creation "boom" ∧
      (benchRun .pebble ⟨5, 1, 0, 1⟩ failThirdStore zeroRng zeroRng).final.currentRoot = 2 ∧
      commitPairs (benchRun .pebble ⟨5, 1, 0, 1⟩ failThirdStore zeroRng
        zeroRng).final.commits = [(1, 0), (2, 1)] ∧
      (benchRun .pebble ⟨5, 1, 0, 1⟩ failThirdStore zeroRng
        zeroRng).final.reportEmitted = false) := by
  constructor
  · intro v p store r1 rM
    obtain ⟨pl, r2, -, -, -, hroot, hrep, -, -, -⟩ := benchRun_facts v p store r1 rM
    exact ⟨hroot, hrep⟩
  · exact ⟨by decide, by decide, by decide, by decide⟩

set_option maxRecDepth 2000000 in
/-- C7: the phase-2 generator clamps mModify to nAccounts, draws a permutation of
all nAccounts indices, performs exactly 500 slot mutations per modified account
(in total 500 * min m n in a completed run), each targeting the phase-1 address of
a permuted index with a slot index below avgSlots, and each value is the raw next
32-byte stream word with no zero/small-value policy. -/
theorem modificationGenerator_correct :
    (∀ (rM : Rng) (n : Nat) (pl : List Nat) (r2 : Rng),
      rM.perm n = some (pl, r2) → pl.length = n ∧ pl.Perm (List.range n)) ∧
    (∀ (v : Variant) (p : Params) (store : Store) (r1 rM : Rng),
      (benchRun v p store r1 rM).outcome = .ok →
      (modTrace (benchRun v p store r1 rM).final).length =
        slotsToModifyPerAccount * min p.mModify p.nAccounts) ∧
    (∀ (v : Variant) (p : Params) (store : Store) (r1 rM : Rng) (x : Phase × Mutation),
      x ∈ (benchRun v p store r1 rM).final.trace → x.1 = Phase.modification →
      ∃ pl r2 q, rM.perm p.nAccounts = some (pl, r2) ∧
        q < min p.mModify p.nAccounts ∧
        p2ItemFor v p (benchRun v p store r1 rM).final.addrs (pl.getD q 0) x) ∧
    (∀ (v : Variant) (p : Params) (addr : Digest) (idx : Nat) (st : RunState) (r : Rng),
      p.nSlots ≠ 0 →
      p2Slot v p addr idx st r =
        .ok ({ st with
          totalSlotsModified := st.totalSlotsModified + 1,
          statedb := st.statedb.setState addr
            (p2SlotKey v idx (r.stream r.pos % p.nSlots)) (r.stream (r.pos + 1) % 2 ^ 256),
          trace := st.trace ++ [(.modification, .setState addr
            (p2SlotKey v idx (r.stream r.pos % p.nSlots))
            (r.stream (r.pos + 1) % 2 ^ 256))] },
          ⟨r.stream, r.pos + 2⟩)) := by
  refine ⟨?_, ?_, ?_, ?_⟩
  · intro rM n pl r2 h
    obtain ⟨pl2, r22, h2, hlen, hperm⟩ := perm_spec rM n
    rw [h] at h2
    have hpr : pl = pl2 ∧ r2 = r22 := by simpa using h2
    obtain ⟨hpl, -⟩ := hpr
    subst hpl
    exact ⟨hlen, hperm⟩
  · intro v p store r1 rM hok
    obtain ⟨pl, r2, -, -, -, -, -, -, -, hokc⟩ := benchRun_facts v p store r1 rM
    exact (hokc hok).2
  · intro v p store r1 rM x hmem hmod
    obtain ⟨pl, r2, hperm, -, -, -, -, htr, -, -⟩ := benchRun_facts v p store r1 rM
    obtain ⟨-, hm⟩ := htr x hmem
    obtain ⟨q, hq, hitem⟩ := hm hmod
    exact ⟨pl, r2, q, hperm, hq, hitem⟩
  · intro v p addr idx st r hns
    exact p2Slot_spec v p addr idx st r hns

set_option maxRecDepth 2000000 in
/-- C7 witness: the permutation, count, item-shape and per-slot parts applied at
concrete inputs. -/
theorem modificationGenerator_w :
    zeroRng.perm 2 = some ([1, 0], ⟨zeroRng.stream, 2⟩) ∧
    ([1, 0] : List Nat).length = 2 ∧ ([1, 0] : List Nat).Perm (List.range 2) ∧
    (benchRun .pebble ⟨1, 1, 1, 1⟩ okStore zeroRng zeroRng).outcome = .ok ∧
    (modTrace (benchRun .pebble ⟨1, 1, 1, 1⟩ okStore zeroRng zeroRng).final).length =
      slotsToModifyPerAccount * min 1 1 ∧
    (∃ pl r2 q, zeroRng.perm 1 = some (pl, r2) ∧ q < min 1 1 ∧
      p2ItemFor .pebble ⟨1, 1, 1, 1⟩
        (benchRun .pebble ⟨1, 1, 1, 1⟩ okStore zeroRng zeroRng).final.addrs (pl.getD q 0)
        (Phase.modification, Mutation.setState (mkAddress 0) (p2SlotKey .pebble 0 0) 0)) ∧
    p2Slot .pebble ⟨1, 1, 1, 1⟩ [] 0 initState zeroRng =
      .ok ({ initState with
        totalSlotsModified := initState.totalSlotsModified + 1,
        statedb := initState.statedb.setState []
          (p2SlotKey .pebble 0 (zeroRng.stream zeroRng.pos % 1))
          (zeroRng.stream (zeroRng.pos + 1) % 2 ^ 256),
        trace := initState.trace ++ [(.modification, .setState []
          (p2SlotKey .pebble 0 (zeroRng.stream zeroRng.pos % 1))
          (zeroRng.stream (zeroRng.pos + 1) % 2 ^ 256))] },
        ⟨zeroRng.stream, zeroRng.pos + 2⟩) := by
  refine ⟨rfl, ?_, ?_, by decide, ?_, ?_, ?_⟩
  · exact (modificationGenerator_correct.1 zeroRng 2 [1, 0] ⟨zeroRng.stream, 2⟩ rfl).1
  · exact (modificationGenerator_correct.1 zeroRng 2 [1, 0] ⟨zeroRng.stream, 2⟩ rfl).2
  · exact modificationGenerator_correct.2.1 .pebble ⟨1, 1, 1, 1⟩ okStore zeroRng zeroRng
      (by decide)
  · exact modificationGenerator_correct.2.2.1 .pebble ⟨1, 1, 1, 1⟩ okStore zeroRng zeroRng
      (Phase.modification, Mutation.setState (mkAddress 0) (p2SlotKey .pebble 0 0) 0)
      (by decide) rfl
  · exact modificationGenerator_correct.2.2.2 .pebble ⟨1, 1, 1, 1⟩ [] 0 initState zeroRng
      (by decide)

/-- C8: each phase-1 slot value is decided by a single dice draw over [0, 100):
below 20 the value is the zero word, from 20 to 29 it is the word 1 (lowest byte
set), otherwise it is the raw next 32-byte stream word; the three branches cover
exactly 20, 10 and 70 of the 100 possible dice values. -/
theorem valuePolicy_correct :
    (∀ (v : Variant) (addr : Digest) (i j : Nat) (st : RunState) (r : Rng),
      p1Slot v addr i j st r =
        .ok ({ st with
          totalSlotsCreated := st.totalSlotsCreated + 1,
          statedb := st.statedb.setState addr (p1SlotKey v i j) (p1ValueOf r),
          trace := st.trace ++
            [(.creation, .setState addr (p1SlotKey v i j) (p1ValueOf r))] },
          p1RngAfter r)) ∧
    (∀ r : Rng, r.stream r.pos % 100 < 100) ∧
    (∀ r : Rng, p1ValueOf r =
      if r.stream r.pos % 100 < 20 then 0
      else if r.stream r.pos % 100 < 30 then 1
      else r.stream (r.pos + 1) % 2 ^ 256) ∧
    ((List.range 100).countP (fun d => decide (d < 20)) = 20 ∧
      (List.range 100).countP (fun d => decide (¬ d < 20 ∧ d < 30)) = 10 ∧
      (List.range 100).countP (fun d => decide (¬ d < 30)) = 70) := by
  exact ⟨p1Slot_spec, fun r => Nat.mod_lt _ (by omega), fun r => rfl,
    by decide, by decide, by decide⟩

/-- C9: phase 1 is deterministic: with the same phase-1 stream (the fixed seed 42)
and the same store, two runs differing only in the phase-2 stream (the time-based
seed) produce the identical creation-phase mutation sequence and the identical
creation-phase commit sequence, roots included. -/
theorem phase1Deterministic :
    ∀ (v : Variant) (p : Params) (store : Store) (r1 rM rM2 : Rng),
      creationTrace (benchRun v p store r1 rM).final =
        creationTrace (benchRun v p store r1 rM2).final ∧
      (benchRun v p store r1 rM).final.commits.filter
          (fun e => e.phase == Phase.creation) =
        (benchRun v p store r1 rM2).final.commits.filter
          (fun e => e.phase == Phase.creation) := by
  intro v p store r1 rM rM2
  obtain ⟨h1t, h1c⟩ := benchRun_creation_of_phase1 v p store r1 rM
  obtain ⟨h2t, h2c⟩ := benchRun_creation_of_phase1 v p store r1 rM2
  exact ⟨h1t.trans h2t.symm, h1c.trans h2c.symm⟩

/-- C10 (amended): the modification generator, invoked with avgSlots = 0 and at
least one account to modify, panics at its first slot-index draw before emitting
any write; but in a full run with avgSlots = 0 the panic happens in phase 1
(whenever nAccounts ≥ 1), so phase 2 is never reached, and with nAccounts = 0 the
clamp sets mModify to 0 and phase 2 performs no draw at all. -/
theorem phase2ZeroSlots_amended :
    (∀ (v : Variant) (p : Params) (store : Store) (mM : Nat) (perm : List Nat)
        (st : RunState) (r : Rng), p.nSlots = 0 → 1 ≤ mM →
      phase2 v p store mM perm st r =
        .crashed { st with totalSlotsModified := st.totalSlotsModified + 1 }) ∧
    (∀ (v : Variant) (p : Params) (store : Store) (r1 rM : Rng),
      p.nSlots = 0 → 1 ≤ p.nAccounts →
      (benchRun v p store r1 rM).outcome = .crashed .creation) ∧
    (∀ (v : Variant) (store : Store) (r1 rM : Rng) (slots m k : Nat),
      (benchRun v ⟨0, slots, m, k⟩ store r1 rM).outcome = .ok) := by
  refine ⟨?_, ?_, ?_⟩
  · intro v p store mM perm st r h0 h1
    exact phase2_crash_zero v p store mM perm st r h0 h1
  · intro v p store r1 rM h0 h1
    rw [benchRun_crash_zero v p store r1 rM h0 h1]
  · intro v store r1 rM slots m k
    rw [benchRun_zero_accounts v store r1 rM slots m k]

/-- C10 counterexample: with slots = 0 and m = 1 the run panics during creation,
not during modification (phase 2 is never reached), and with n = 0 the run
terminates normally without any phase-2 draw — so the claim that phase 2 panics
at its first slot-index draw is false for the whole program. -/
theorem phase2ZeroSlots_cex :
    (benchRun .pebble ⟨1, 0, 1, 50⟩ okStore zeroRng zeroRng).outcome =
      .crashed .creation ∧
    (benchRun .pebble ⟨1, 0, 1, 50⟩ okStore zeroRng zeroRng).outcome ≠
      .crashed .modification ∧
    modTrace (benchRun .pebble ⟨1, 0, 1, 50⟩ okStore zeroRng zeroRng).final = [] ∧
    (benchRun .pebble ⟨0, 0, 1, 50⟩ okStore zeroRng zeroRng).outcome = .ok := by
  refine ⟨by decide, by decide, by decide, by decide⟩

/-- C10 witness: the amended theorem applied at concrete inputs. -/
theorem phase2ZeroSlots_w :
    phase2 .pebble ⟨2, 0, 1, 50⟩ okStore 1 [0, 1] initState zeroRng =
      .crashed { initState with totalSlotsModified := initState.totalSlotsModified + 1 } ∧
    (benchRun .pebble ⟨1, 0, 1, 50⟩ okStore zeroRng zeroRng).outcome =
      .crashed .creation ∧
    (benchRun .pebble ⟨0, 5, 1, 50⟩ okStore zeroRng zeroRng).outcome = .ok := by
  exact ⟨phase2ZeroSlots_amended.1 .pebble ⟨2, 0, 1, 50⟩ okStore 1 [0, 1] initState
      zeroRng rfl (by decide),
    phase2ZeroSlots_amended.2.1 .pebble ⟨1, 0, 1, 50⟩ okStore zeroRng zeroRng rfl
      (by decide),
    phase2ZeroSlots_amended.2.2 .pebble okStore zeroRng zeroRng 5 1 50⟩

end MptBench
